import Mathlib

/-!
# Verification of the `scality-manila-utils` export-table model

A shallow embedding of `scality_manila_utils/export.py` (the `Export` and
`ExportTable` classes), together with the rename error-handling step of
`wipe_export` from `helper.py` and `smb_helper.py`.

Python strings are modelled as Lean `String` (in this toolchain a wrapper
around `List Char`); Python `dict`s are modelled as insertion-ordered
association lists with update-in-place semantics (`pyInsert`); Python
`frozenset`s are modelled as duplicate-free lists retaining first
occurrences (`frozensetOf`); raised exceptions are modelled with `Except`.
The whitespace and line-boundary predicates implement CPython's
classification for ASCII characters; validity predicates used by the
round-trip theorems confine strings to ASCII accordingly.
-/

/-- CPython whitespace classification (`str.split()` / `str.strip()`),
restricted to ASCII: space, `\t`, `\n`, `\v`, `\f`, `\r` and `\x1c`-`\x1f`. -/
def isPySpace (c : Char) : Bool :=
  let n := c.toNat
  n = 32 || (9 ≤ n && n ≤ 13) || (28 ≤ n && n ≤ 31)

/-- CPython `str.splitlines()` boundary characters, restricted to ASCII:
`\n`, `\v`, `\f`, `\r`, `\x1c`, `\x1d`, `\x1e`. -/
def isLineBoundary (c : Char) : Bool :=
  let n := c.toNat
  n = 10 || n = 11 || n = 12 || n = 13 || n = 28 || n = 29 || n = 30

/-- The character class of `Export.CLIENT_PATTERN`'s host group
(lowercase letters, digits, star, then dot - hyphen - slash).  Inside a
regex character class the dash between the dot (46) and the slash (47)
denotes the two-character range dot..slash, so the class is
`{a..z, 0..9, star, dot, slash}`: a literal hyphen is NOT part of it. -/
def isHostChar (c : Char) : Bool :=
  let n := c.toNat
  (97 ≤ n && n ≤ 122) || (48 ≤ n && n ≤ 57) || n = 42 || n = 46 || n = 47

/-- Python `str.split()` with no separator: maximal runs of
non-whitespace characters, with leading/trailing/repeated whitespace
discarded.  `acc` accumulates the current word in reverse. -/
def pyWordsAux : List Char → List Char → List String
  | [], acc => if acc.isEmpty then [] else [acc.reverse.asString]
  | c :: cs, acc =>
    if isPySpace c then
      if acc.isEmpty then pyWordsAux cs [] else acc.reverse.asString :: pyWordsAux cs []
    else pyWordsAux cs (c :: acc)

/-- Python `line.split()`. -/
def pySplit (s : String) : List String := pyWordsAux s.data []

/-- Python `str.split(',')` over a character list: every comma is a
separator and empty pieces are kept. -/
def splitOnCommaAux : List Char → List Char → List String
  | [], acc => [acc.reverse.asString]
  | c :: cs, acc =>
    if c = ',' then acc.reverse.asString :: splitOnCommaAux cs []
    else splitOnCommaAux cs (c :: acc)

/-- Python `option_list.split(',')`. -/
def splitOnComma (cs : List Char) : List String := splitOnCommaAux cs []

/-- Python `','.join(xs)`. -/
def joinComma : List String → String
  | [] => ""
  | [x] => x
  | x :: y :: xs => x ++ "," ++ joinComma (y :: xs)

/-- Python `'\n'.join(xs)`. -/
def joinNewline : List String → String
  | [] => ""
  | [x] => x
  | x :: y :: xs => x ++ "\n" ++ joinNewline (y :: xs)

/-- Python `str.splitlines()` restricted to ASCII boundaries: split at every
line-boundary character, `\r\n` counting as a single boundary, with no
trailing empty line when the text ends in a boundary. -/
def pySplitlinesAux : List Char → List Char → List String
  | [], acc => if acc.isEmpty then [] else [acc.reverse.asString]
  | '\r' :: '\n' :: cs, acc => acc.reverse.asString :: pySplitlinesAux cs []
  | c :: cs, acc =>
    if isLineBoundary c then acc.reverse.asString :: pySplitlinesAux cs []
    else pySplitlinesAux cs (c :: acc)

/-- Python `text.splitlines()`. -/
def pySplitlines (s : String) : List String := pySplitlinesAux s.data []

/-- Python `str.strip()`: drop leading and trailing whitespace. -/
def pyStrip (s : String) : String :=
  (((s.data.dropWhile isPySpace).reverse.dropWhile isPySpace).reverse).asString

/-- Python `frozenset(xs)`, modelled as the duplicate-free list of first
occurrences (`seen` holds the elements already emitted).  Python's actual
iteration order over a `frozenset` is unspecified; every property proved
below is insensitive to the order chosen. -/
def frozensetAux (seen : List String) : List String → List String
  | [] => []
  | x :: xs =>
    if x ∈ seen then frozensetAux seen xs
    else x :: frozensetAux (x :: seen) xs

/-- Python `frozenset(xs)`. -/
def frozensetOf (xs : List String) : List String := frozensetAux [] xs

/-- Fail-fast effectful map, as a Python loop that raises on the first
failing element. -/
def mapExcept (f : α → Except ε β) : List α → Except ε (List β)
  | [] => .ok []
  | x :: xs => do
    let y ← f x
    let ys ← mapExcept f xs
    .ok (y :: ys)

/-- Python `d[k] = v`: replace the value at the first matching key, or
append a fresh binding at the end (dict insertion order). -/
def pyInsert (d : List (String × α)) (k : String) (v : α) : List (String × α) :=
  match d with
  | [] => [(k, v)]
  | (k', v') :: rest =>
    if k' = k then (k, v) :: rest else (k', v') :: pyInsert rest k v

/-- Python `d.get(k)` / `d[k]` lookup. -/
def dictLookup (d : List (String × α)) (k : String) : Option α :=
  match d with
  | [] => none
  | (k', v) :: rest => if k' = k then some v else dictLookup rest k

/-- Python `k in d`. -/
def dictContains (d : List (String × α)) (k : String) : Bool :=
  (dictLookup d k).isSome

/-- Python `del d[k]` (keys are unique in an actual dict, so removing the
first match suffices). -/
def dictRemove (d : List (String × α)) (k : String) : List (String × α) :=
  match d with
  | [] => []
  | (k', v) :: rest => if k' = k then rest else (k', v) :: dictRemove rest k

/-- Python `dict(pairs)`: insert the pairs left to right; a later
duplicate key overwrites the value but keeps the original position. -/
def dictOfPairs (ps : List (String × α)) : List (String × α) :=
  ps.foldl (fun d kv => pyInsert d kv.1 kv.2) []

/-- The last element of a list, if any (used to state last-write-wins). -/
def lastOf : List α → Option α
  | [] => none
  | [x] => some x
  | _ :: y :: xs => lastOf (y :: xs)

deriving instance DecidableEq for Except

/-- The exceptions of `scality_manila_utils/exceptions.py` that the export
model can raise (messages elided). -/
inductive ExportError
  /-- `ExportException`: an `Export` must have at least one client. -/
  | exportException
  /-- `DeserializationException`: malformed line or client token. -/
  | deserialization
  /-- `ExportNotFoundException`. -/
  | exportNotFound
  /-- `ClientExistsException`. -/
  | clientExists
  /-- `ClientNotFoundException`. -/
  | clientNotFound
deriving DecidableEq, Repr

/-- `Export`: an exported filesystem, i.e. a single line of `/etc/exports`.
`clients` is the Python dict mapping host spec to its frozenset of options,
as an insertion-ordered association list whose option sets are
duplicate-free lists. -/
structure Export where
  export_point : String
  clients : List (String × List String)
deriving DecidableEq, Repr

/-- `Export.__init__`: raises `ExportException` when the clients mapping is
empty, otherwise yields the export value. -/
def Export.make (exportPoint : String) (clients : List (String × List String)) :
    Except ExportError Export :=
  if clients.isEmpty then .error .exportException
  else .ok ⟨exportPoint, clients⟩

/-- The `client_extract` closure of `Export.deserialize`: match a client
token against `CLIENT_PATTERN` and split out host and options.

`CLIENT_PATTERN` anchors at both ends; the host group is a non-empty
greedy run over `isHostChar`, and since `(` is not a host character the
match is forced to take the maximal such run.  The optional group then
requires the remainder to be empty, or to be `(` followed by at least one
non-newline character and a final `)` (the `.+` of the options group does
not match a newline; a trailing-newline token cannot arise because tokens
come from `str.split()`). -/
def client_extract (client : String) : Except ExportError (String × List String) :=
  let cs := client.data
  let host := cs.takeWhile isHostChar
  let rest := cs.drop host.length
  if host.isEmpty then .error .deserialization
  else if rest.isEmpty then .ok (host.asString, [])
  else if rest.head? = some '(' && rest.getLast? = some ')' && 3 ≤ rest.length
          && ((rest.drop 1).dropLast.all (fun c => c ≠ '\n')) then
    .ok (host.asString, frozensetOf (splitOnComma ((rest.drop 1).dropLast)))
  else .error .deserialization

/-- `Export.deserialize`: split the line on whitespace; fewer than two
tokens is a `DeserializationException`; otherwise token 0 is the export
point and the remaining tokens are parsed by `client_extract` (fail-fast,
in order) and collected into a dict. -/
def Export.deserialize (line : String) : Except ExportError Export :=
  match pySplit line with
  | exportPoint :: c :: cs => do
    let pairs ← mapExcept client_extract (c :: cs)
    Export.make exportPoint (dictOfPairs pairs)
  | _ => .error .deserialization

/-- One client's fragment of `Export.serialize`'s accumulating loop:
`' ' + host`, plus `'(' + ','.join(options) + ')'` when the option set is
non-empty (Python truthiness of a frozenset). -/
def clientFragment (hc : String × List String) : String :=
  " " ++ hc.1 ++ (if hc.2.isEmpty then "" else "(" ++ joinComma hc.2 ++ ")")

/-- The `'{0:<32s}'` format spec: left-justify in a field of minimum
width 32, padding with spaces, never truncating. -/
def padTo32 (s : String) : String :=
  s ++ (List.replicate (32 - s.data.length) ' ').asString

/-- `Export.serialize`: accumulate one fragment per client, then emit
`'{export_point:<32s} {clients:s}'`. -/
def Export.serialize (e : Export) : String :=
  let clients := e.clients.foldl (fun acc hc => acc ++ clientFragment hc) ""
  padTo32 e.export_point ++ " " ++ clients

/-- `ExportTable`: the exports dict keyed by export point, insertion
ordered. -/
structure ExportTable where
  exports : List (String × Export)
deriving DecidableEq, Repr

/-- `ExportTable.__init__`: build the dict keyed by each export's
`export_point` (a later duplicate key overwrites the value). -/
def ExportTable.ofExports (exports : List Export) : ExportTable :=
  ⟨dictOfPairs (exports.map (fun e => (e.export_point, e)))⟩

/-- Normalization of `add_client`'s `options` argument: `None` becomes the
empty frozenset, otherwise `frozenset(options)`. -/
def normOptions : Option (List String) → List String
  | none => []
  | some os => frozensetOf os

/-- `ExportTable.add_client`.  The Python method mutates `self.exports` in
place; the embedding returns the updated table, and an `.error` result
corresponds to an exception raised before any mutation (the caller's table
is untouched in that case). -/
def ExportTable.add_client (t : ExportTable) (exportPoint host : String)
    (options : Option (List String)) : Except ExportError ExportTable :=
  let exportOptions := normOptions options
  match dictLookup t.exports exportPoint with
  | none => do
    let e ← Export.make exportPoint [(host, exportOptions)]
    .ok ⟨pyInsert t.exports exportPoint e⟩
  | some e =>
    if dictContains e.clients host then .error .clientExists
    else do
      let e' ← Export.make exportPoint (pyInsert e.clients host exportOptions)
      .ok ⟨pyInsert t.exports exportPoint e'⟩

/-- `ExportTable.remove_client`.  As with `add_client`, an `.error` result
corresponds to an exception raised before any mutation. -/
def ExportTable.remove_client (t : ExportTable) (exportPoint host : String) :
    Except ExportError ExportTable :=
  match dictLookup t.exports exportPoint with
  | none => .error .exportNotFound
  | some e =>
    if dictContains e.clients host then
      if 1 < e.clients.length then do
        let e' ← Export.make exportPoint (dictRemove e.clients host)
        .ok ⟨pyInsert t.exports exportPoint e'⟩
      else .ok ⟨dictRemove t.exports exportPoint⟩
    else .error .clientNotFound

/-- The `strip_comment` closure of `ExportTable.deserialize`:
`line.partition('#')` keeps everything before the first `#`. -/
def strip_comment (line : String) : String :=
  (line.data.takeWhile (fun c => c ≠ '#')).asString

/-- The `is_blank` closure of `ExportTable.deserialize`: the stripped line
is empty or starts with `#`. -/
def is_blank (line : String) : Bool :=
  let stripped := pyStrip line
  stripped = "" || stripped.data.head? = some '#'

/-- `ExportTable.deserialize`: keep the non-blank lines, parse each
comment-stripped survivor with `Export.deserialize` (fail-fast, in input
order) and build the table from the resulting exports. -/
def ExportTable.deserialize (exportContent : List String) :
    Except ExportError ExportTable := do
  let exports ← mapExcept (fun l => Export.deserialize (strip_comment l))
    (exportContent.filter (fun l => !is_blank l))
  .ok (ExportTable.ofExports exports)

/-- `ExportTable.serialize`: newline-join every export's line and append a
final newline. -/
def ExportTable.serialize (t : ExportTable) : String :=
  joinNewline (t.exports.map (fun pe => pe.2.serialize)) ++ "\n"

/-- `errno.ENOENT`. -/
def ENOENT : Nat := 2

/-- Outcome of the `os.rename` call inside `wipe_export`. -/
inductive RenameResult
  /-- The rename succeeded. -/
  | success
  /-- The rename raised `OSError` with the given `errno`. -/
  | oserror (errno : Nat)
deriving DecidableEq, Repr

/-- The rename step of `helper.wipe_export` (`helper.py`): on `OSError`
the exception is logged and re-raised, whatever its `errno`. -/
def helperWipeRename : RenameResult → Except Nat Unit
  | .success => .ok ()
  | .oserror e => .error e

/-- The rename step of `smb_helper.wipe_export` (`smb_helper.py`): an
`OSError` is re-raised unless its `errno` is `ENOENT`, which is tolerated
as the benign loss of a race with a concurrent wiper. -/
def smbWipeRename : RenameResult → Except Nat Unit
  | .success => .ok ()
  | .oserror e => if e ≠ ENOENT then .error e else .ok ()

/-! ## Character-class facts -/

theorem isLineBoundary_false_of_space_false {c : Char} (h : isPySpace c = false) :
    isLineBoundary c = false := by
  rw [Bool.eq_false_iff] at h ⊢
  intro hb
  apply h
  simp only [isPySpace, Bool.or_eq_true, Bool.and_eq_true, decide_eq_true_eq]
  simp only [isLineBoundary, Bool.or_eq_true, decide_eq_true_eq] at hb
  omega

theorem hostChar_props {c : Char} (h : isHostChar c = true) :
    isPySpace c = false ∧ c ≠ '(' ∧ c ≠ ')' ∧ c ≠ '#' ∧ c ≠ ',' := by
  simp only [isHostChar, Bool.or_eq_true, Bool.and_eq_true, decide_eq_true_eq] at h
  refine ⟨?_, ?_, ?_, ?_, ?_⟩
  · rw [Bool.eq_false_iff]
    intro hs
    simp only [isPySpace, Bool.or_eq_true, Bool.and_eq_true, decide_eq_true_eq] at hs
    omega
  · intro hc
    subst hc
    revert h
    decide
  · intro hc
    subst hc
    revert h
    decide
  · intro hc
    subst hc
    revert h
    decide
  · intro hc
    subst hc
    revert h
    decide

/-! ## Generic list helpers -/

theorem takeWhile_all {p : Char → Bool} : ∀ {l : List Char}, (∀ c ∈ l, p c = true) →
    l.takeWhile p = l
  | [], _ => rfl
  | c :: l, h => by
    rw [List.takeWhile_cons, if_pos (h c (by simp))]
    rw [takeWhile_all (fun x hx => h x (by simp [hx]))]

theorem takeWhile_app {p : Char → Bool} {w : List Char} (rest : List Char)
    (hw : ∀ c ∈ w, p c = true) :
    (w ++ rest).takeWhile p = w ++ rest.takeWhile p := by
  induction w with
  | nil => simp
  | cons c w ih =>
    rw [List.cons_append, List.takeWhile_cons, if_pos (hw c (by simp))]
    rw [ih (fun x hx => hw x (by simp [hx]))]
    rfl

theorem dropWhile_app {p : Char → Bool} : ∀ (l r : List Char),
    (l ++ r).dropWhile p =
      (if l.dropWhile p = [] then r.dropWhile p else l.dropWhile p ++ r)
  | [], r => by simp
  | c :: l, r => by
    rw [List.cons_append, List.dropWhile_cons, List.dropWhile_cons]
    by_cases hc : p c = true
    · rw [if_pos hc, if_pos hc, dropWhile_app l r]
    · rw [if_neg hc, if_neg hc, if_neg (by simp), List.cons_append]

/-- Stripping trailing characters cannot change a non-stripped head. -/
theorem dropTrailing_head {p : Char → Bool} (c : Char) (l : List Char) (h : p c = false) :
    (((c :: l).reverse.dropWhile p).reverse).head? = some c := by
  rw [List.reverse_cons, dropWhile_app]
  by_cases hl : l.reverse.dropWhile p = []
  · rw [if_pos hl]
    rw [List.dropWhile_cons]
    simp [h]
  · rw [if_neg hl]
    rw [List.reverse_append]
    cases hd : l.reverse.dropWhile p with
    | nil => exact absurd hd hl
    | cons d ds => simp [hd]

/-! ## `pyWordsAux` (Python `str.split()`) -/

theorem pyWordsAux_space (c : Char) (cs acc : List Char) (h : isPySpace c = true) :
    pyWordsAux (c :: cs) acc =
      if acc.isEmpty then pyWordsAux cs []
      else acc.reverse.asString :: pyWordsAux cs [] := by
  simp [pyWordsAux, h]

theorem pyWordsAux_nonspace (c : Char) (cs acc : List Char) (h : isPySpace c = false) :
    pyWordsAux (c :: cs) acc = pyWordsAux cs (c :: acc) := by
  simp [pyWordsAux, h]

theorem pyWordsAux_word (w : List Char) : ∀ (rest acc : List Char),
    (∀ c ∈ w, isPySpace c = false) →
    pyWordsAux (w ++ rest) acc = pyWordsAux rest (w.reverse ++ acc) := by
  induction w with
  | nil => intro rest acc _; rfl
  | cons c w ih =>
    intro rest acc hw
    rw [List.cons_append, pyWordsAux_nonspace c _ _ (hw c (by simp))]
    rw [ih rest (c :: acc) (fun x hx => hw x (by simp [hx]))]
    rw [List.reverse_cons, List.append_assoc, List.singleton_append]

theorem pyWordsAux_spaces (sp : List Char) : ∀ (rest : List Char),
    (∀ c ∈ sp, isPySpace c = true) →
    pyWordsAux (sp ++ rest) [] = pyWordsAux rest [] := by
  induction sp with
  | nil => intro rest _; rfl
  | cons c sp ih =>
    intro rest hsp
    rw [List.cons_append, pyWordsAux_space c _ _ (hsp c (by simp))]
    rw [if_pos (show (List.isEmpty ([] : List Char)) = true from rfl)]
    exact ih rest (fun x hx => hsp x (by simp [hx]))

theorem pyWordsAux_emit (sp rest acc : List Char) (hsp : sp ≠ [])
    (hall : ∀ c ∈ sp, isPySpace c = true) (hacc : acc ≠ []) :
    pyWordsAux (sp ++ rest) acc = acc.reverse.asString :: pyWordsAux rest [] := by
  cases sp with
  | nil => exact absurd rfl hsp
  | cons c sp =>
    rw [List.cons_append, pyWordsAux_space c _ _ (hall c (by simp))]
    rw [if_neg (by simp [hacc])]
    rw [pyWordsAux_spaces sp rest (fun x hx => hall x (by simp [hx]))]

theorem pyWordsAux_flat_acc (tks : List (List Char)) :
    ∀ (acc : List Char), acc ≠ [] →
    (∀ w ∈ tks, w ≠ [] ∧ ∀ c ∈ w, isPySpace c = false) →
    pyWordsAux ((tks.map (fun w => ' ' :: w)).flatten) acc
      = acc.reverse.asString :: tks.map List.asString := by
  induction tks with
  | nil =>
    intro acc hacc _
    cases acc with
    | nil => exact absurd rfl hacc
    | cons a l => simp [pyWordsAux]
  | cons w tks ih =>
    intro acc hacc h
    rw [List.map_cons, List.flatten_cons, List.cons_append]
    rw [pyWordsAux_space ' ' _ _ (by decide), if_neg (by simp [hacc])]
    rw [pyWordsAux_word w _ [] (h w (by simp)).2, List.append_nil]
    rw [ih w.reverse (by simp [(h w (by simp)).1]) (fun x hx => h x (by simp [hx]))]
    rw [List.reverse_reverse, List.map_cons]

theorem pyWordsAux_flat (tks : List (List Char))
    (h : ∀ w ∈ tks, w ≠ [] ∧ ∀ c ∈ w, isPySpace c = false) :
    pyWordsAux ((tks.map (fun w => ' ' :: w)).flatten) [] = tks.map List.asString := by
  cases tks with
  | nil => rfl
  | cons w tks =>
    rw [List.map_cons, List.flatten_cons, List.cons_append]
    rw [pyWordsAux_space ' ' _ _ (by decide), if_pos (show (List.isEmpty ([] : List Char)) = true from rfl)]
    rw [pyWordsAux_word w _ [] (h w (by simp)).2, List.append_nil]
    rw [pyWordsAux_flat_acc tks w.reverse (by simp [(h w (by simp)).1])
      (fun x hx => h x (by simp [hx]))]
    rw [List.reverse_reverse, List.map_cons]

/-- Splitting a serialized export line: the export point, padding and one
space-led token per client split into exactly the token list. -/
theorem pyWordsAux_line (ep sp : List Char) (tks : List (List Char))
    (hep : ep ≠ []) (hepc : ∀ c ∈ ep, isPySpace c = false)
    (hspne : sp ≠ []) (hsp : ∀ c ∈ sp, isPySpace c = true)
    (htks : ∀ w ∈ tks, w ≠ [] ∧ ∀ c ∈ w, isPySpace c = false) :
    pyWordsAux (ep ++ sp ++ (tks.map (fun w => ' ' :: w)).flatten) []
      = ep.asString :: tks.map List.asString := by
  rw [List.append_assoc, pyWordsAux_word ep _ [] hepc, List.append_nil]
  rw [pyWordsAux_emit sp _ ep.reverse hspne hsp (by simp [hep])]
  rw [List.reverse_reverse, pyWordsAux_flat tks htks]

/-! ## `splitOnComma` and `joinComma` -/

theorem data_asString (s : String) : s.data.asString = s := rfl

theorem asString_data (l : List Char) : (List.asString l).data = l := rfl

theorem splitOnCommaAux_word (w : List Char) : ∀ (rest acc : List Char),
    (∀ c ∈ w, c ≠ ',') →
    splitOnCommaAux (w ++ rest) acc = splitOnCommaAux rest (w.reverse ++ acc) := by
  induction w with
  | nil => intro rest acc _; rfl
  | cons c w ih =>
    intro rest acc hw
    rw [List.cons_append]
    show (if c = ',' then _ else splitOnCommaAux (w ++ rest) (c :: acc)) = _
    rw [if_neg (hw c (by simp))]
    rw [ih rest (c :: acc) (fun x hx => hw x (by simp [hx]))]
    rw [List.reverse_cons, List.append_assoc, List.singleton_append]

theorem splitOnCommaAux_comma (cs acc : List Char) :
    splitOnCommaAux (',' :: cs) acc = acc.reverse.asString :: splitOnCommaAux cs [] := by
  show (if (',' : Char) = ',' then _ else _) = _
  rw [if_pos rfl]

theorem splitOnComma_joinComma : ∀ (os : List String), os ≠ [] →
    (∀ o ∈ os, ∀ c ∈ o.data, c ≠ ',') →
    splitOnComma (joinComma os).data = os := by
  intro os
  induction os with
  | nil => intro h; exact absurd rfl h
  | cons x os ih =>
    intro _ h
    cases os with
    | nil =>
      show splitOnCommaAux ((joinComma [x]).data) [] = [x]
      rw [joinComma]
      rw [show x.data = x.data ++ [] from (List.append_nil x.data).symm]
      rw [splitOnCommaAux_word x.data [] [] (h x (by simp))]
      simp [splitOnCommaAux, data_asString]
    | cons y os' =>
      show splitOnCommaAux ((joinComma (x :: y :: os')).data) [] = _
      rw [joinComma, String.data_append, String.data_append]
      rw [List.append_assoc]
      rw [splitOnCommaAux_word x.data _ [] (h x (by simp))]
      rw [show (",".data : List Char) ++ (joinComma (y :: os')).data
            = ',' :: (joinComma (y :: os')).data from rfl]
      rw [List.append_nil]
      rw [splitOnCommaAux_comma]
      rw [List.reverse_reverse]
      rw [show splitOnCommaAux (joinComma (y :: os')).data [] =
            splitOnComma (joinComma (y :: os')).data from rfl]
      rw [ih (by simp) (fun o ho => h o (by simp [ho]))]
      rw [data_asString]

theorem joinComma_data_mem : ∀ (os : List String), ∀ c ∈ (joinComma os).data,
    c = ',' ∨ ∃ o ∈ os, c ∈ o.data := by
  intro os
  induction os with
  | nil => intro c hc; exact absurd hc (by simp [joinComma])
  | cons x os ih =>
    intro c hc
    cases os with
    | nil =>
      rw [joinComma] at hc
      exact Or.inr ⟨x, by simp, hc⟩
    | cons y os' =>
      rw [joinComma, String.data_append, String.data_append] at hc
      rw [List.append_assoc] at hc
      rcases List.mem_append.mp hc with hx | hrest
      · exact Or.inr ⟨x, by simp, hx⟩
      · rcases List.mem_append.mp hrest with hcomma | hj
        · left
          simpa using hcomma
        · rcases ih c hj with h | ⟨o, ho, hco⟩
          · exact Or.inl h
          · exact Or.inr ⟨o, by simp [ho], hco⟩

theorem joinComma_ne_nil : ∀ (os : List String), os ≠ [] → (∀ o ∈ os, o ≠ "") →
    (joinComma os).data ≠ [] := by
  intro os
  induction os with
  | nil => intro h; exact absurd rfl h
  | cons x os _ =>
    intro _ h
    cases os with
    | nil =>
      rw [joinComma]
      intro hd
      exact h x (by simp) (String.ext_iff.mpr hd)
    | cons y os' =>
      rw [joinComma, String.data_append, String.data_append, List.append_assoc]
      intro hd
      rcases List.append_eq_nil.mp hd with ⟨_, h2⟩
      rcases List.append_eq_nil.mp h2 with ⟨h3, _⟩
      exact absurd h3 (by simp)

/-! ## `frozensetOf` -/

theorem frozensetAux_mem : ∀ (os : List String) (seen : List String) (x : String),
    x ∈ frozensetAux seen os → x ∈ os ∧ x ∉ seen := by
  intro os
  induction os with
  | nil => intro seen x hx; exact absurd hx (by simp [frozensetAux])
  | cons y os ih =>
    intro seen x hx
    rw [frozensetAux] at hx
    by_cases hy : y ∈ seen
    · rw [if_pos hy] at hx
      rcases ih seen x hx with ⟨h1, h2⟩
      exact ⟨by simp [h1], h2⟩
    · rw [if_neg hy] at hx
      rcases List.mem_cons.mp hx with rfl | hx'
      · exact ⟨by simp, hy⟩
      · rcases ih (y :: seen) x hx' with ⟨h1, h2⟩
        exact ⟨by simp [h1], fun hs => h2 (by simp [hs])⟩

theorem frozensetAux_nodup : ∀ (os seen : List String), (frozensetAux seen os).Nodup := by
  intro os
  induction os with
  | nil => intro seen; simp [frozensetAux]
  | cons y os ih =>
    intro seen
    rw [frozensetAux]
    by_cases hy : y ∈ seen
    · rw [if_pos hy]
      exact ih seen
    · rw [if_neg hy]
      refine List.nodup_cons.mpr ⟨fun hmem => ?_, ih (y :: seen)⟩
      exact (frozensetAux_mem os (y :: seen) y hmem).2 (by simp)

theorem frozensetAux_of_nodup : ∀ (os seen : List String), os.Nodup →
    (∀ x ∈ os, x ∉ seen) → frozensetAux seen os = os := by
  intro os
  induction os with
  | nil => intro seen _ _; rfl
  | cons y os ih =>
    intro seen hnd hdisj
    have hdisj' : ∀ x ∈ os, x ∉ y :: seen := by
      intro x hx hmem
      rcases List.mem_cons.mp hmem with rfl | hs
      · exact (List.nodup_cons.mp hnd).1 hx
      · exact hdisj x (by simp [hx]) hs
    rw [frozensetAux, if_neg (hdisj y (by simp))]
    rw [ih (y :: seen) (List.nodup_cons.mp hnd).2 hdisj']

theorem frozensetOf_nodup (os : List String) : (frozensetOf os).Nodup :=
  frozensetAux_nodup os []

theorem frozensetOf_of_nodup (os : List String) (h : os.Nodup) : frozensetOf os = os :=
  frozensetAux_of_nodup os [] h (by simp)

/-! ## `pySplitlinesAux` (Python `str.splitlines()`) -/

theorem pySplitlinesAux_nl (cs acc : List Char) :
    pySplitlinesAux ('\n' :: cs) acc = acc.reverse.asString :: pySplitlinesAux cs [] := by
  simp only [pySplitlinesAux]
  rw [if_pos (by decide)]

theorem pySplitlinesAux_plain (c : Char) (cs acc : List Char) (h : isLineBoundary c = false) :
    pySplitlinesAux (c :: cs) acc = pySplitlinesAux cs (c :: acc) := by
  rw [pySplitlinesAux.eq_def]
  split
  · simp_all
  · rename_i heq
    injection heq with h1 h2
    rw [h1] at h
    exact absurd h (by decide)
  · rename_i heq
    injection heq with h1 h2
    subst h1
    subst h2
    rw [if_neg (by simp [h])]

theorem pySplitlinesAux_word (w : List Char) : ∀ (rest acc : List Char),
    (∀ c ∈ w, isLineBoundary c = false) →
    pySplitlinesAux (w ++ rest) acc = pySplitlinesAux rest (w.reverse ++ acc) := by
  induction w with
  | nil => intro rest acc _; rfl
  | cons c w ih =>
    intro rest acc hw
    rw [List.cons_append, pySplitlinesAux_plain c _ _ (hw c (by simp))]
    rw [ih rest (c :: acc) (fun x hx => hw x (by simp [hx]))]
    rw [List.reverse_cons, List.append_assoc, List.singleton_append]

theorem pySplitlines_joinNewline : ∀ (lines : List String), lines ≠ [] →
    (∀ l ∈ lines, ∀ c ∈ l.data, isLineBoundary c = false) →
    pySplitlines (joinNewline lines ++ "\n") = lines := by
  intro lines
  induction lines with
  | nil => intro h; exact absurd rfl h
  | cons x lines ih =>
    intro _ h
    cases lines with
    | nil =>
      show pySplitlinesAux ((joinNewline [x] ++ "\n").data) [] = [x]
      rw [joinNewline, String.data_append]
      rw [show ("\n" : String).data = ['\n'] from rfl]
      rw [pySplitlinesAux_word x.data _ [] (h x (by simp))]
      rw [List.append_nil, pySplitlinesAux_nl]
      rw [List.reverse_reverse, data_asString]
      rfl
    | cons y lines' =>
      show pySplitlinesAux ((joinNewline (x :: y :: lines') ++ "\n").data) [] = _
      rw [joinNewline, String.data_append, String.data_append, String.data_append]
      rw [List.append_assoc, List.append_assoc]
      rw [pySplitlinesAux_word x.data _ [] (h x (by simp))]
      rw [List.append_nil]
      rw [show ("\n" : String).data ++ ((joinNewline (y :: lines')).data ++ ("\n" : String).data)
            = '\n' :: ((joinNewline (y :: lines')).data ++ ("\n" : String).data) from rfl]
      rw [pySplitlinesAux_nl, List.reverse_reverse, data_asString]
      rw [show (joinNewline (y :: lines')).data ++ ("\n" : String).data
            = ((joinNewline (y :: lines')) ++ "\n").data from (String.data_append _ _).symm]
      rw [show pySplitlinesAux ((joinNewline (y :: lines') ++ "\n").data) []
            = pySplitlines (joinNewline (y :: lines') ++ "\n") from rfl]
      rw [ih (by simp) (fun l hl => h l (by simp [hl]))]

/-- Every character of a newline-join comes from one of the lines or is the
newline separator. -/
theorem joinNewline_data_mem : ∀ (lines : List String), ∀ c ∈ (joinNewline lines).data,
    c = '\n' ∨ ∃ l ∈ lines, c ∈ l.data := by
  intro lines
  induction lines with
  | nil => intro c hc; exact absurd hc (by simp [joinNewline])
  | cons x lines ih =>
    intro c hc
    cases lines with
    | nil =>
      rw [joinNewline] at hc
      exact Or.inr ⟨x, by simp, hc⟩
    | cons y lines' =>
      rw [joinNewline, String.data_append, String.data_append] at hc
      rw [List.append_assoc] at hc
      rcases List.mem_append.mp hc with hx | hrest
      · exact Or.inr ⟨x, by simp, hx⟩
      · rcases List.mem_append.mp hrest with hnl | hj
        · left
          simpa using hnl
        · rcases ih c hj with hcomma | ⟨l, hl, hcl⟩
          · exact Or.inl hcomma
          · exact Or.inr ⟨l, by simp [hl], hcl⟩

/-! ## String-append folds -/

theorem foldl_append_data {α : Type} (f : α → String) : ∀ (l : List α) (s : String),
    (l.foldl (fun acc x => acc ++ f x) s).data
      = s.data ++ (l.map (fun x => (f x).data)).flatten := by
  intro l
  induction l with
  | nil => intro s; simp
  | cons x l ih =>
    intro s
    rw [List.foldl_cons, ih (s ++ f x), String.data_append]
    rw [List.map_cons, List.flatten_cons, List.append_assoc]

/-! ## Dict lemmas -/

theorem pyInsert_ne_nil {α : Type} (d : List (String × α)) (k : String) (v : α) :
    pyInsert d k v ≠ [] := by
  cases d with
  | nil => simp [pyInsert]
  | cons kv rest =>
    rw [pyInsert]
    by_cases h : kv.1 = k
    · rw [if_pos h]; simp
    · rw [if_neg h]; simp

theorem mem_pyInsert {α : Type} : ∀ (d : List (String × α)) (k : String) (v : α)
    (x : String × α), x ∈ pyInsert d k v → x = (k, v) ∨ x ∈ d := by
  intro d
  induction d with
  | nil => intro k v x hx; simpa [pyInsert] using hx
  | cons kv rest ih =>
    intro k v x hx
    rw [pyInsert] at hx
    by_cases h : kv.1 = k
    · rw [if_pos h] at hx
      rcases List.mem_cons.mp hx with rfl | hx'
      · exact Or.inl rfl
      · exact Or.inr (by simp [hx'])
    · rw [if_neg h] at hx
      rcases List.mem_cons.mp hx with rfl | hx'
      · exact Or.inr (by simp)
      · rcases ih k v x hx' with h1 | h2
        · exact Or.inl h1
        · exact Or.inr (by simp [h2])

theorem dictLookup_pyInsert_self {α : Type} : ∀ (d : List (String × α)) (k : String) (v : α),
    dictLookup (pyInsert d k v) k = some v := by
  intro d
  induction d with
  | nil => intro k v; simp [pyInsert, dictLookup]
  | cons kv rest ih =>
    intro k v
    rw [pyInsert]
    by_cases h : kv.1 = k
    · rw [if_pos h, dictLookup, if_pos rfl]
    · rw [if_neg h, dictLookup, if_neg h, ih]

theorem dictLookup_pyInsert_ne {α : Type} : ∀ (d : List (String × α)) (k k' : String) (v : α),
    k' ≠ k → dictLookup (pyInsert d k v) k' = dictLookup d k' := by
  intro d
  induction d with
  | nil =>
    intro k k' v hne
    show dictLookup [(k, v)] k' = dictLookup [] k'
    simp only [dictLookup]
    rw [if_neg (fun hk => hne hk.symm)]
  | cons kv rest ih =>
    intro k k' v hne
    rw [pyInsert]
    by_cases h : kv.1 = k
    · rw [if_pos h, dictLookup, dictLookup]
      rw [if_neg (fun hk => hne hk.symm), if_neg (by rw [h]; exact fun hk => hne hk.symm)]
    · rw [if_neg h, dictLookup, dictLookup]
      by_cases h2 : kv.1 = k'
      · rw [if_pos h2, if_pos h2]
      · rw [if_neg h2, if_neg h2, ih k k' v hne]


theorem except_bind_ok {α β ε : Type} (a : α) (f : α → Except ε β) :
    (Except.ok a >>= f) = f a := rfl

theorem except_bind_error {α β ε : Type} (e : ε) (f : α → Except ε β) :
    ((Except.error e : Except ε α) >>= f) = Except.error e := rfl

theorem dictLookup_eq_none_iff {α : Type} : ∀ (d : List (String × α)) (k : String),
    dictLookup d k = none ↔ k ∉ d.map Prod.fst := by
  intro d
  induction d with
  | nil => intro k; simp [dictLookup]
  | cons kv rest ih =>
    obtain ⟨k1, v1⟩ := kv
    intro k
    rw [show dictLookup ((k1, v1) :: rest) k = if k1 = k then some v1 else dictLookup rest k
          from rfl]
    by_cases hk : k1 = k
    · rw [if_pos hk]
      simp [hk]
    · rw [if_neg hk, ih k]
      rw [List.map_cons]
      simp only [List.mem_cons, not_or]
      constructor
      · intro h
        exact ⟨fun hh => hk hh.symm, h⟩
      · intro h
        exact h.2

theorem pyInsert_of_lookup_none {α : Type} : ∀ (d : List (String × α)) (k : String) (v : α),
    dictLookup d k = none → pyInsert d k v = d ++ [(k, v)] := by
  intro d
  induction d with
  | nil => intro k v _; rfl
  | cons kv rest ih =>
    obtain ⟨k1, v1⟩ := kv
    intro k v h
    rw [show dictLookup ((k1, v1) :: rest) k = if k1 = k then some v1 else dictLookup rest k
          from rfl] at h
    by_cases hk : k1 = k
    · rw [if_pos hk] at h
      exact absurd h (Option.some_ne_none _)
    · rw [if_neg hk] at h
      rw [pyInsert, if_neg hk, ih k v h, List.cons_append]

theorem dictOfPairs_aux_of_nodup {α : Type} : ∀ (ps acc : List (String × α)),
    ((acc ++ ps).map Prod.fst).Nodup →
    ps.foldl (fun d kv => pyInsert d kv.1 kv.2) acc = acc ++ ps := by
  intro ps
  induction ps with
  | nil => intro acc _; simp
  | cons kv ps ih =>
    intro acc hnd
    rw [List.foldl_cons]
    have hnotin : dictLookup acc kv.1 = none := by
      rw [dictLookup_eq_none_iff]
      intro hmem
      rw [List.map_append, List.nodup_append] at hnd
      exact hnd.2.2 hmem (by simp)
    rw [pyInsert_of_lookup_none acc kv.1 kv.2 hnotin]
    rw [ih (acc ++ [kv]) (by simpa using hnd)]
    simp

theorem dictOfPairs_of_nodup {α : Type} (ps : List (String × α))
    (h : (ps.map Prod.fst).Nodup) : dictOfPairs ps = ps := by
  rw [dictOfPairs, dictOfPairs_aux_of_nodup ps [] (by simpa using h), List.nil_append]

theorem mem_dictOfPairs {α : Type} : ∀ (ps acc : List (String × α)) (x : String × α),
    x ∈ ps.foldl (fun d kv => pyInsert d kv.1 kv.2) acc → x ∈ acc ∨ x ∈ ps := by
  intro ps
  induction ps with
  | nil => intro acc x hx; exact Or.inl hx
  | cons kv ps ih =>
    intro acc x hx
    rw [List.foldl_cons] at hx
    rcases ih (pyInsert acc kv.1 kv.2) x hx with h1 | h2
    · rcases mem_pyInsert acc kv.1 kv.2 x h1 with h3 | h4
      · right
        rw [h3]
        simp
      · exact Or.inl h4
    · right
      simp [h2]

theorem dictOfPairs_ne_nil {α : Type} : ∀ (ps acc : List (String × α)),
    acc ≠ [] ∨ ps ≠ [] → ps.foldl (fun d kv => pyInsert d kv.1 kv.2) acc ≠ [] := by
  intro ps
  induction ps with
  | nil =>
    intro acc h
    rcases h with h | h
    · exact h
    · exact absurd rfl h
  | cons kv ps ih =>
    intro acc _
    rw [List.foldl_cons]
    exact ih (pyInsert acc kv.1 kv.2) (Or.inl (pyInsert_ne_nil acc kv.1 kv.2))

theorem mem_dictRemove {α : Type} : ∀ (d : List (String × α)) (k : String) (x : String × α),
    x ∈ dictRemove d k → x ∈ d := by
  intro d
  induction d with
  | nil => intro k x hx; exact absurd hx (by simp [dictRemove])
  | cons kv rest ih =>
    obtain ⟨k1, v1⟩ := kv
    intro k x hx
    rw [show dictRemove ((k1, v1) :: rest) k
          = if k1 = k then rest else (k1, v1) :: dictRemove rest k from rfl] at hx
    by_cases h : k1 = k
    · rw [if_pos h] at hx
      simp [hx]
    · rw [if_neg h] at hx
      rcases List.mem_cons.mp hx with rfl | hx'
      · simp
      · simp [ih k x hx']

theorem length_dictRemove {α : Type} : ∀ (d : List (String × α)) (k : String),
    dictContains d k = true → (dictRemove d k).length + 1 = d.length := by
  intro d
  induction d with
  | nil => intro k h; simp [dictContains, dictLookup] at h
  | cons kv rest ih =>
    obtain ⟨k1, v1⟩ := kv
    intro k h
    rw [show dictRemove ((k1, v1) :: rest) k
          = if k1 = k then rest else (k1, v1) :: dictRemove rest k from rfl]
    by_cases hk : k1 = k
    · rw [if_pos hk]
      rfl
    · rw [if_neg hk]
      rw [dictContains, show dictLookup ((k1, v1) :: rest) k
            = if k1 = k then some v1 else dictLookup rest k from rfl, if_neg hk] at h
      rw [List.length_cons, List.length_cons, ih k h]

theorem dictLookup_dictRemove_self {α : Type} : ∀ (d : List (String × α)) (k : String),
    (d.map Prod.fst).Nodup → dictLookup (dictRemove d k) k = none := by
  intro d
  induction d with
  | nil => intro k _; rfl
  | cons kv rest ih =>
    obtain ⟨k1, v1⟩ := kv
    intro k hnd
    rw [show dictRemove ((k1, v1) :: rest) k
          = if k1 = k then rest else (k1, v1) :: dictRemove rest k from rfl]
    by_cases hk : k1 = k
    · rw [if_pos hk]
      rw [dictLookup_eq_none_iff]
      intro hmem
      rw [List.map_cons, List.nodup_cons] at hnd
      exact hnd.1 (hk ▸ hmem)
    · rw [if_neg hk, show dictLookup ((k1, v1) :: dictRemove rest k) k
            = if k1 = k then some v1 else dictLookup (dictRemove rest k) k from rfl]
      rw [if_neg hk]
      rw [List.map_cons, List.nodup_cons] at hnd
      exact ih k hnd.2

/-! ## `mapExcept` lemmas -/

theorem mapExcept_ok_of_forall {α β ε : Type} {f : α → Except ε β} {g : α → β} :
    ∀ (xs : List α), (∀ x ∈ xs, f x = .ok (g x)) → mapExcept f xs = .ok (xs.map g) := by
  intro xs
  induction xs with
  | nil => intro _; rfl
  | cons x xs ih =>
    intro h
    rw [mapExcept, h x (by simp), except_bind_ok, ih (fun y hy => h y (by simp [hy]))]
    rfl

theorem mapExcept_map {α γ β ε : Type} (f : γ → Except ε β) (g : α → γ) :
    ∀ (xs : List α), mapExcept f (xs.map g) = mapExcept (fun x => f (g x)) xs := by
  intro xs
  induction xs with
  | nil => rfl
  | cons x xs ih =>
    rw [List.map_cons, mapExcept, mapExcept, ih]

theorem mapExcept_mem_ok {α β ε : Type} {f : α → Except ε β} :
    ∀ (xs : List α) (ys : List β), mapExcept f xs = .ok ys →
      ∀ y ∈ ys, ∃ x ∈ xs, f x = .ok y := by
  intro xs
  induction xs with
  | nil =>
    intro ys h y hy
    rw [mapExcept] at h
    injection h with h
    subst h
    exact absurd hy (by simp)
  | cons x xs ih =>
    intro ys h y hy
    rw [mapExcept] at h
    cases hfx : f x with
    | error e =>
      rw [hfx, except_bind_error] at h
      exact absurd h (by simp)
    | ok b =>
      rw [hfx, except_bind_ok] at h
      cases hrest : mapExcept f xs with
      | error e =>
        rw [hrest, except_bind_error] at h
        exact absurd h (by simp)
      | ok bs =>
        rw [hrest, except_bind_ok] at h
        have hys : b :: bs = ys := by
          injection h with h
        subst hys
        rcases List.mem_cons.mp hy with rfl | hy'
        · exact ⟨x, by simp, hfx⟩
        · rcases ih bs hrest y hy' with ⟨x', hx', hfx'⟩
          exact ⟨x', by simp [hx'], hfx'⟩

theorem mapExcept_error_mem {α β ε : Type} {f : α → Except ε β} :
    ∀ (xs : List α) (e : ε), mapExcept f xs = .error e → ∃ x ∈ xs, f x = .error e := by
  intro xs
  induction xs with
  | nil => intro e h; exact absurd h (by simp [mapExcept])
  | cons x xs ih =>
    intro e h
    rw [mapExcept] at h
    cases hfx : f x with
    | error e' =>
      rw [hfx, except_bind_error] at h
      injection h with h
      subst h
      exact ⟨x, by simp, hfx⟩
    | ok b =>
      rw [hfx, except_bind_ok] at h
      cases hrest : mapExcept f xs with
      | error e' =>
        rw [hrest, except_bind_error] at h
        injection h with h
        rcases ih e' hrest with ⟨x', hx', hfx'⟩
        exact ⟨x', by simp [hx'], by rw [hfx', h]⟩
      | ok bs =>
        rw [hrest, except_bind_ok] at h
        exact absurd h (by simp)

theorem mapExcept_error_of_mem {α β ε : Type} {f : α → Except ε β} :
    ∀ (xs : List α) (x : α) (e : ε), x ∈ xs → f x = .error e →
      ∃ e', mapExcept f xs = .error e' := by
  intro xs
  induction xs with
  | nil => intro x e hx _; exact absurd hx (by simp)
  | cons y xs ih =>
    intro x e hx hfx
    rw [mapExcept]
    cases hfy : f y with
    | error e' => exact ⟨e', by rw [except_bind_error]⟩
    | ok b =>
      rcases List.mem_cons.mp hx with rfl | hx'
      · rw [hfy] at hfx
        exact absurd hfx (by simp)
      · rcases ih x e hx' hfx with ⟨e', he'⟩
        refine ⟨e', ?_⟩
        rw [except_bind_ok, he', except_bind_error]

theorem mapExcept_cons_ok_ne_nil {α β ε : Type} {f : α → Except ε β}
    {x : α} {xs : List α} {ys : List β} (h : mapExcept f (x :: xs) = .ok ys) : ys ≠ [] := by
  rw [mapExcept] at h
  cases hfx : f x with
  | error e =>
    rw [hfx, except_bind_error] at h
    exact absurd h (by simp)
  | ok b =>
    rw [hfx, except_bind_ok] at h
    cases hrest : mapExcept f xs with
    | error e =>
      rw [hrest, except_bind_error] at h
      exact absurd h (by simp)
    | ok bs =>
      rw [hrest, except_bind_ok] at h
      injection h with h
      rw [← h]
      simp

/-! ## Validity of exports for the round-trip properties

The spec's "valid" Export/ExportTable is formalized as: a non-empty
export point with no whitespace, no `#` and ASCII-only characters; a
non-empty client dict with unique host keys; hosts that are non-empty
runs of `CLIENT_PATTERN` host characters; option sets that are
duplicate-free lists of non-empty ASCII strings free of whitespace,
commas and `#`. -/

def ValidEp (ep : String) : Prop :=
  ep ≠ "" ∧ ∀ c ∈ ep.data, isPySpace c = false ∧ c ≠ '#' ∧ c.toNat ≤ 127

def ValidHost (h : String) : Prop :=
  h ≠ "" ∧ ∀ c ∈ h.data, isHostChar c = true

def ValidOptions (os : List String) : Prop :=
  os.Nodup ∧ ∀ o ∈ os, o ≠ "" ∧
    ∀ c ∈ o.data, isPySpace c = false ∧ c ≠ ',' ∧ c ≠ '#' ∧ c.toNat ≤ 127

def ValidExport (e : Export) : Prop :=
  ValidEp e.export_point ∧ e.clients ≠ [] ∧ (e.clients.map Prod.fst).Nodup ∧
  ∀ hc ∈ e.clients, ValidHost hc.1 ∧ ValidOptions hc.2

def ValidTable (t : ExportTable) : Prop :=
  (t.exports.map Prod.fst).Nodup ∧
  ∀ pe ∈ t.exports, pe.1 = pe.2.export_point ∧ ValidExport pe.2

theorem data_ne_nil {s : String} (h : s ≠ "") : s.data ≠ [] :=
  fun hd => h (String.ext_iff.mpr hd)

/-- The characters of one client's serialized token (host plus optional
parenthesized option list), i.e. `clientFragment` without its leading
space. -/
def clientToken (hc : String × List String) : List Char :=
  hc.1.data ++ (if hc.2.isEmpty then [] else '(' :: ((joinComma hc.2).data ++ [')']))

theorem clientFragment_data (hc : String × List String) :
    (clientFragment hc).data = ' ' :: clientToken hc := by
  rw [clientFragment, clientToken]
  by_cases h : hc.2.isEmpty
  · rw [if_pos h, if_pos h]
    rw [String.data_append, String.data_append]
    simp
  · rw [if_neg h, if_neg h]
    rw [String.data_append, String.data_append, String.data_append, String.data_append]
    simp

theorem client_extract_bare (host : String) (hne : host ≠ "")
    (hall : ∀ c ∈ host.data, isHostChar c = true) :
    client_extract host = .ok (host, []) := by
  simp only [client_extract]
  rw [takeWhile_all hall, List.drop_length]
  rw [if_neg (by simp [data_ne_nil hne])]
  rw [if_pos (show (List.isEmpty ([] : List Char)) = true from rfl)]
  rw [data_asString]

theorem client_extract_opts (host : String) (mid : List Char) (hne : host ≠ "")
    (hall : ∀ c ∈ host.data, isHostChar c = true)
    (hmid : mid ≠ []) (hnl : ∀ c ∈ mid, c ≠ '\n') :
    client_extract (host.data ++ '(' :: (mid ++ [')'])).asString
      = .ok (host, frozensetOf (splitOnComma mid)) := by
  have htw : List.takeWhile isHostChar (host.data ++ '(' :: (mid ++ [')'])) = host.data := by
    rw [takeWhile_app _ hall, List.takeWhile_cons, if_neg (by decide), List.append_nil]
  have hdrop : List.drop host.data.length (host.data ++ '(' :: (mid ++ [')']))
      = '(' :: (mid ++ [')']) := List.drop_left _ _
  simp only [client_extract, asString_data, htw, hdrop]
  rw [if_neg (by simp [data_ne_nil hne])]
  rw [if_neg (by simp)]
  have hlast : ('(' :: (mid ++ [')'])).getLast? = some ')' := by
    rw [show ('(' :: (mid ++ [')'])) = ('(' :: mid) ++ [')'] from by simp]
    exact List.getLast?_concat _
  have hlen : 3 ≤ ('(' :: (mid ++ [')'])).length := by
    cases mid with
    | nil => exact absurd rfl hmid
    | cons c cs =>
      simp only [List.length_cons, List.length_append, List.length_singleton]
      omega
  have h3 : (List.drop 1 ('(' :: (mid ++ [')']))).dropLast = mid := by
    rw [List.drop_one, List.tail_cons, List.dropLast_concat]
  split
  · rw [h3, data_asString]
  · rename_i hcond
    exfalso
    apply hcond
    simp only [h3, Bool.and_eq_true, decide_eq_true_eq]
    refine ⟨⟨⟨rfl, hlast⟩, hlen⟩, ?_⟩
    rw [List.all_eq_true]
    intro c hcm
    simpa using hnl c hcm

theorem client_extract_clientToken (hc : String × List String)
    (hhost : ValidHost hc.1) (hopts : ValidOptions hc.2) :
    client_extract (clientToken hc).asString = .ok hc := by
  obtain ⟨host, os⟩ := hc
  by_cases h : os = []
  · subst h
    rw [clientToken]
    rw [if_pos (show (List.isEmpty ([] : List String)) = true from rfl)]
    rw [List.append_nil, data_asString]
    exact client_extract_bare host hhost.1 hhost.2
  · rw [clientToken]
    rw [if_neg (show ¬ ((os.isEmpty) = true) from by simpa using h)]
    have hnl : ∀ c ∈ (joinComma os).data, c ≠ '\n' := by
      intro c hcm
      rcases joinComma_data_mem os c hcm with rfl | ⟨o, ho, hco⟩
      · decide
      · intro hc'
        subst hc'
        have hsp := ((hopts.2 o ho).2 '\n' hco).1
        revert hsp
        decide
    have hmidne := joinComma_ne_nil os h (fun o ho => (hopts.2 o ho).1)
    rw [client_extract_opts host (joinComma os).data hhost.1 hhost.2 hmidne hnl]
    rw [splitOnComma_joinComma os h (fun o ho c hcm => ((hopts.2 o ho).2 c hcm).2.1)]
    rw [frozensetOf_of_nodup os hopts.1]

theorem serialize_data (e : Export) :
    (Export.serialize e).data
      = e.export_point.data
        ++ (List.replicate (32 - e.export_point.data.length) ' ' ++ [' '])
        ++ ((e.clients.map clientToken).map (fun w => ' ' :: w)).flatten := by
  rw [Export.serialize]
  rw [String.data_append, String.data_append]
  rw [padTo32, String.data_append, asString_data]
  rw [foldl_append_data clientFragment e.clients ""]
  rw [show ("" : String).data = [] from rfl, List.nil_append]
  rw [show (" " : String).data = [' '] from rfl]
  rw [List.map_map]
  rw [show (List.map ((fun w => ' ' :: w) ∘ clientToken) e.clients)
        = List.map (fun hc => (clientFragment hc).data) e.clients from by
    apply List.map_congr_left
    intro hc _
    rw [Function.comp_apply, clientFragment_data]]
  simp only [List.append_assoc]

theorem clientToken_ne_nil (hc : String × List String) (hhost : ValidHost hc.1) :
    clientToken hc ≠ [] := by
  rw [clientToken]
  intro h
  rcases List.append_eq_nil.mp h with ⟨h1, _⟩
  exact data_ne_nil hhost.1 h1

theorem clientToken_chars (hc : String × List String) (hhost : ValidHost hc.1)
    (hopts : ValidOptions hc.2) :
    ∀ c ∈ clientToken hc, isPySpace c = false ∧ c ≠ '#' := by
  intro c hcm
  rw [clientToken] at hcm
  rcases List.mem_append.mp hcm with hhostc | hrest
  · have hh := hhost.2 c hhostc
    exact ⟨(hostChar_props hh).1, (hostChar_props hh).2.2.2.1⟩
  · by_cases hos : hc.2.isEmpty
    · rw [if_pos hos] at hrest
      exact absurd hrest (by simp)
    · rw [if_neg hos] at hrest
      rcases List.mem_cons.mp hrest with rfl | hrest'
      · exact ⟨by decide, by decide⟩
      · rcases List.mem_append.mp hrest' with hmid | hrp
        · rcases joinComma_data_mem hc.2 c hmid with rfl | ⟨o, ho, hco⟩
          · exact ⟨by decide, by decide⟩
          · exact ⟨((hopts.2 o ho).2 c hco).1, ((hopts.2 o ho).2 c hco).2.2.1⟩
        · rw [List.mem_singleton.mp hrp]
          exact ⟨by decide, by decide⟩

theorem serialize_data_props (e : Export) (hv : ValidExport e) :
    ∀ c ∈ (Export.serialize e).data, (c ≠ '#' ∧ isLineBoundary c = false) := by
  intro c hcm
  rw [serialize_data] at hcm
  rcases List.mem_append.mp hcm with hleft | htok
  · rcases List.mem_append.mp hleft with hep | hpad
    · have h := hv.1.2 c hep
      exact ⟨h.2.1, isLineBoundary_false_of_space_false h.1⟩
    · have hsp : c = ' ' := by
        rcases List.mem_append.mp hpad with h | h
        · exact List.eq_of_mem_replicate h
        · simpa using h
      subst hsp
      exact ⟨by decide, by decide⟩
  · rcases List.mem_flatten.mp htok with ⟨w, hw, hcw⟩
    rcases List.mem_map.mp hw with ⟨tok, htok', rfl⟩
    rcases List.mem_map.mp htok' with ⟨hcl, hhc, rfl⟩
    rcases List.mem_cons.mp hcw with rfl | hcw'
    · exact ⟨by decide, by decide⟩
    · have h := clientToken_chars hcl (hv.2.2.2 hcl hhc).1 (hv.2.2.2 hcl hhc).2 c hcw'
      exact ⟨h.2, isLineBoundary_false_of_space_false h.1⟩

theorem pySplit_serialize (e : Export) (hv : ValidExport e) :
    pySplit (Export.serialize e)
      = e.export_point :: (e.clients.map clientToken).map List.asString := by
  obtain ⟨hep, hne, hnd, hcl⟩ := hv
  rw [pySplit, serialize_data]
  rw [pyWordsAux_line e.export_point.data _ (e.clients.map clientToken)
    (data_ne_nil hep.1) (fun c hc => (hep.2 c hc).1) (by simp)
    (fun c hc => ?hsp) (fun w hw => ?htk)]
  · rw [data_asString]
  case hsp =>
    have : c = ' ' := by
      rcases List.mem_append.mp hc with h | h
      · exact List.eq_of_mem_replicate h
      · simpa using h
    subst this
    decide
  case htk =>
    rcases List.mem_map.mp hw with ⟨hcl', hhc, rfl⟩
    constructor
    · exact clientToken_ne_nil hcl' (hcl hcl' hhc).1
    · intro c hcw
      exact (clientToken_chars hcl' (hcl hcl' hhc).1 (hcl hcl' hhc).2 c hcw).1

theorem export_round_trip (e : Export) (hv : ValidExport e) :
    Export.deserialize (Export.serialize e) = .ok e := by
  have hsplit := pySplit_serialize e hv
  obtain ⟨hep, hne, hnd, hcl⟩ := hv
  cases hcls : e.clients with
  | nil => exact absurd hcls hne
  | cons hc0 rest =>
    rw [Export.deserialize, hsplit, hcls]
    rw [List.map_cons, List.map_cons]
    show (do
      let pairs ← mapExcept client_extract
        ((clientToken hc0).asString ::
          (rest.map clientToken).map List.asString)
      Export.make e.export_point (dictOfPairs pairs)) = .ok e
    rw [show ((clientToken hc0).asString :: (rest.map clientToken).map List.asString)
          = ((hc0 :: rest).map (fun hc => (clientToken hc).asString)) from by
      rw [List.map_cons, List.map_map]
      rfl]
    rw [mapExcept_map client_extract (fun hc => (clientToken hc).asString) (hc0 :: rest)]
    rw [mapExcept_ok_of_forall (g := id) (hc0 :: rest) (fun hc hhc => by
      rw [client_extract_clientToken hc ((hcls ▸ hcl) hc hhc).1 ((hcls ▸ hcl) hc hhc).2]
      rfl)]
    rw [except_bind_ok, List.map_id]
    rw [dictOfPairs_of_nodup (hc0 :: rest) (hcls ▸ hnd)]
    rw [Export.make, if_neg (by simp)]
    rw [← hcls]

theorem strip_comment_id (s : String) (h : ∀ c ∈ s.data, c ≠ '#') :
    strip_comment s = s := by
  rw [strip_comment, takeWhile_all (fun c hc => decide_eq_true (h c hc)), data_asString]

theorem is_blank_serialize (e : Export) (hv : ValidExport e) :
    is_blank (Export.serialize e) = false := by
  have hd := serialize_data e
  cases hepd : e.export_point.data with
  | nil => exact absurd hepd (data_ne_nil hv.1.1)
  | cons c0 cs0 =>
    have hc0 := hv.1.2 c0 (by rw [hepd]; simp)
    have hshape : (Export.serialize e).data = c0 :: (cs0
        ++ ((List.replicate (32 - e.export_point.data.length) ' ' ++ [' '])
        ++ ((e.clients.map clientToken).map (fun w => ' ' :: w)).flatten)) := by
      rw [hd, hepd]
      simp [List.append_assoc]
    have hhead : (pyStrip (Export.serialize e)).data.head? = some c0 := by
      rw [pyStrip, hshape]
      rw [List.dropWhile_cons, if_neg (by rw [hc0.1]; simp)]
      rw [asString_data]
      exact dropTrailing_head c0 _ hc0.1
    have hne : ¬ (pyStrip (Export.serialize e) = "") := by
      intro hq
      rw [hq, show ("" : String).data = [] from rfl] at hhead
      exact absurd hhead (by simp)
    have hhash : ¬ ((pyStrip (Export.serialize e)).data.head? = some '#') := by
      intro hq
      rw [hhead] at hq
      injection hq with hq
      exact hc0.2.1 hq
    rw [is_blank]
    simp only [decide_eq_false hne, decide_eq_false hhash, Bool.or_false]

theorem map_fst_matches {l : List (String × Export)}
    (h : ∀ pe ∈ l, pe.1 = pe.2.export_point) :
    l.map (fun pe => (pe.2.export_point, pe.2)) = l := by
  induction l with
  | nil => rfl
  | cons pe rest ih =>
    rw [List.map_cons, ih (fun x hx => h x (by simp [hx]))]
    rw [show (pe.2.export_point, pe.2) = pe from by
      rw [← h pe (by simp)]]

theorem table_round_trip (t : ExportTable) (hv : ValidTable t) :
    ExportTable.deserialize (pySplitlines (ExportTable.serialize t)) = .ok t := by
  obtain ⟨hnd, hent⟩ := hv
  cases hte : t.exports with
  | nil =>
    have ht : t = ⟨[]⟩ := by
      cases t
      simp only [ExportTable.mk.injEq]
      exact hte
    rw [ht]
    rfl
  | cons pe0 rest =>
    have hlines : pySplitlines (ExportTable.serialize t)
        = t.exports.map (fun pe => pe.2.serialize) := by
      rw [ExportTable.serialize]
      rw [show (joinNewline (t.exports.map (fun pe => pe.2.serialize)) ++ "\n" : String)
            = joinNewline (t.exports.map (fun pe => pe.2.serialize)) ++ "\n" from rfl]
      rw [pySplitlines_joinNewline (t.exports.map (fun pe => pe.2.serialize))
        (by rw [hte]; simp) (fun l hl c hc => ?bnd)]
      case bnd =>
        rcases List.mem_map.mp hl with ⟨pe, hpe, rfl⟩
        exact (serialize_data_props pe.2 (hent pe hpe).2 c hc).2
    rw [ExportTable.deserialize, hlines]
    rw [List.filter_eq_self.mpr (fun l hl => ?keep)]
    case keep =>
      rcases List.mem_map.mp hl with ⟨pe, hpe, rfl⟩
      rw [is_blank_serialize pe.2 (hent pe hpe).2]
      rfl
    rw [mapExcept_map _ (fun pe => pe.2.serialize) t.exports]
    rw [mapExcept_ok_of_forall (g := fun pe => pe.2) t.exports (fun pe hpe => by
      rw [strip_comment_id _ (fun c hc => (serialize_data_props pe.2 (hent pe hpe).2 c hc).1)]
      exact export_round_trip pe.2 (hent pe hpe).2)]
    rw [except_bind_ok]
    rw [ExportTable.ofExports, List.map_map]
    rw [show (List.map ((fun e => (e.export_point, e)) ∘ fun pe => pe.2) t.exports)
          = List.map (fun pe => (pe.2.export_point, pe.2)) t.exports from rfl]
    rw [map_fst_matches (fun pe hpe => (hent pe hpe).1)]
    rw [dictOfPairs_of_nodup t.exports hnd]

instance (ep : String) : Decidable (ValidEp ep) := by
  unfold ValidEp
  infer_instance

instance (h : String) : Decidable (ValidHost h) := by
  unfold ValidHost
  infer_instance

instance (os : List String) : Decidable (ValidOptions os) := by
  unfold ValidOptions
  infer_instance

instance (e : Export) : Decidable (ValidExport e) := by
  unfold ValidExport
  infer_instance

instance (t : ExportTable) : Decidable (ValidTable t) := by
  unfold ValidTable
  infer_instance

/-- C1: Round-trip at both levels: for any valid Export (non-empty client
map), `Export.deserialize (Export.serialize e)` returns exactly `e`; and
for any valid ExportTable, deserializing the splitlines of its
serialization returns exactly the table, where equality is export-point
equality plus exact client-map (hosts and per-host option sets) equality
(the model's structural equality realizes Python's `==` on these types). -/
theorem C1_round_trip :
    (∀ e : Export, ValidExport e → Export.deserialize (Export.serialize e) = .ok e) ∧
    (∀ t : ExportTable, ValidTable t →
      ExportTable.deserialize (pySplitlines (ExportTable.serialize t)) = .ok t) :=
  ⟨export_round_trip, table_round_trip⟩

/-- C1 witness: the round trip evaluated at a concrete export and table. -/
theorem C1_round_trip_witness :
    (ValidExport ⟨"/fs", [("hosta", ["rw", "sync"]), ("*.b.c", [])]⟩ ∧
      Export.deserialize (Export.serialize ⟨"/fs", [("hosta", ["rw", "sync"]), ("*.b.c", [])]⟩)
        = .ok ⟨"/fs", [("hosta", ["rw", "sync"]), ("*.b.c", [])]⟩) ∧
    (ValidTable ⟨[("/fs", ⟨"/fs", [("hosta", ["rw"])]⟩), ("/p2", ⟨"/p2", [("x9", [])]⟩)]⟩ ∧
      ExportTable.deserialize (pySplitlines (ExportTable.serialize
          ⟨[("/fs", ⟨"/fs", [("hosta", ["rw"])]⟩), ("/p2", ⟨"/p2", [("x9", [])]⟩)]⟩))
        = .ok ⟨[("/fs", ⟨"/fs", [("hosta", ["rw"])]⟩), ("/p2", ⟨"/p2", [("x9", [])]⟩)]⟩) :=
  ⟨⟨by decide, C1_round_trip.1 _ (by decide)⟩,
   ⟨by decide, C1_round_trip.2 _ (by decide)⟩⟩

/-- C2 counterexample: the claim asserts that every host token over the
spec's character set, "including ones containing a literal hyphen", is
accepted; but `CLIENT_PATTERN`'s class treats the hyphen as a range
operator, so the host `a-b` (and the line `/fs a-b`) is rejected with a
`DeserializationException`. -/
theorem C2_hyphen_counterexample :
    client_extract "a-b" = .error .deserialization ∧
    Export.deserialize "/fs a-b" = .error .deserialization := by
  constructor
  · decide
  · decide

/-- C2 (amended): every client token whose host part is a non-empty run
over the class `{a..z, 0..9, star, dot, slash}` — the hyphen is NOT in the
class — optionally followed by a parenthesized non-empty option text, is
accepted by `client_extract`; the part before the parenthesis is the host
key, and the option text is comma-split into a duplicate-free set (absent
parentheses yield the empty option set).  The option text may not contain
a newline (the regex `.+` cannot match one; tokens produced by
`str.split()` never contain one). -/
theorem C2_client_pattern (host : String) (mid : List Char)
    (hhost : host ≠ "") (hall : ∀ c ∈ host.data, isHostChar c = true) :
    client_extract host = .ok (host, []) ∧
    (mid ≠ [] → (∀ c ∈ mid, c ≠ '\n') →
      client_extract (host.data ++ '(' :: (mid ++ [')'])).asString
        = .ok (host, frozensetOf (splitOnComma mid)) ∧
      (frozensetOf (splitOnComma mid)).Nodup) := by
  refine ⟨client_extract_bare host hhost hall, fun hmid hnl => ?_⟩
  exact ⟨client_extract_opts host mid hhost hall hmid hnl,
    frozensetOf_nodup (splitOnComma mid)⟩

/-- C2 witness: the amended acceptance evaluated on concrete tokens,
with a duplicate option collapsed. -/
theorem C2_client_pattern_witness :
    client_extract "ab.c" = .ok ("ab.c", []) ∧
    client_extract ("ab.c".data ++ '(' :: ("rw,sync,rw".data ++ [')'])).asString
      = .ok ("ab.c", frozensetOf (splitOnComma "rw,sync,rw".data)) ∧
    (frozensetOf (splitOnComma "rw,sync,rw".data)).Nodup :=
  ⟨(C2_client_pattern "ab.c" "rw,sync,rw".data (by decide) (by decide)).1,
   ((C2_client_pattern "ab.c" "rw,sync,rw".data (by decide) (by decide)).2
      (by decide) (by decide)).1,
   ((C2_client_pattern "ab.c" "rw,sync,rw".data (by decide) (by decide)).2
      (by decide) (by decide)).2⟩

theorem add_client_eq_some (t : ExportTable) (ep host : String)
    (opts : Option (List String)) (e : Export) (h : dictLookup t.exports ep = some e) :
    t.add_client ep host opts =
      (if dictContains e.clients host then .error .clientExists
       else Export.make ep (pyInsert e.clients host (normOptions opts)) >>=
         (fun e' => .ok ⟨pyInsert t.exports ep e'⟩)) := by
  rw [ExportTable.add_client, h]

/-- C3: `add_client` on an absent export point creates a one-client
Export (a `none` options argument normalized to the empty set); on a
present export point with an already-granted host it fails with
`ClientExists` (the exception is raised before any mutation, so the
caller's table is untouched); on a present export point with a new host
it inserts the pair without disturbing any existing host's grant. -/
theorem C3_add_client (t : ExportTable) (ep host : String) (opts : Option (List String)) :
    (dictLookup t.exports ep = none →
      t.add_client ep host opts
        = .ok ⟨pyInsert t.exports ep ⟨ep, [(host, normOptions opts)]⟩⟩ ∧
      dictLookup (pyInsert t.exports ep ⟨ep, [(host, normOptions opts)]⟩) ep
        = some ⟨ep, [(host, normOptions opts)]⟩) ∧
    (∀ e, dictLookup t.exports ep = some e → dictContains e.clients host = true →
      t.add_client ep host opts = .error .clientExists) ∧
    (∀ e, dictLookup t.exports ep = some e → dictContains e.clients host = false →
      t.add_client ep host opts
        = .ok ⟨pyInsert t.exports ep ⟨ep, pyInsert e.clients host (normOptions opts)⟩⟩ ∧
      dictLookup (pyInsert e.clients host (normOptions opts)) host
        = some (normOptions opts) ∧
      ∀ h', h' ≠ host →
        dictLookup (pyInsert e.clients host (normOptions opts)) h'
          = dictLookup e.clients h') := by
  refine ⟨fun habs => ?_, fun e hpres hdup => ?_, fun e hpres hnew => ?_⟩
  · constructor
    · rw [ExportTable.add_client, habs]
      rw [Export.make, if_neg (by simp), except_bind_ok]
    · exact dictLookup_pyInsert_self t.exports ep _
  · rw [add_client_eq_some t ep host opts e hpres, if_pos hdup]
  · refine ⟨?_, dictLookup_pyInsert_self e.clients host _, fun h' hne =>
      dictLookup_pyInsert_ne e.clients host h' _ hne⟩
    rw [add_client_eq_some t ep host opts e hpres, if_neg (by simp [hnew])]
    rw [Export.make, if_neg (by simp [pyInsert_ne_nil]), except_bind_ok]

/-- C3 witness: the three branches evaluated on concrete tables. -/
theorem C3_add_client_witness :
    (ExportTable.add_client ⟨[]⟩ "/p" "h1" none
      = .ok ⟨pyInsert [] "/p" ⟨"/p", [("h1", normOptions none)]⟩⟩) ∧
    (ExportTable.add_client ⟨[("/p", ⟨"/p", [("h1", [])]⟩)]⟩ "/p" "h1" (some ["rw"])
      = .error .clientExists) ∧
    (ExportTable.add_client ⟨[("/p", ⟨"/p", [("h1", [])]⟩)]⟩ "/p" "h2" (some ["rw"])
      = .ok ⟨pyInsert [("/p", ⟨"/p", [("h1", [])]⟩)] "/p"
          ⟨"/p", pyInsert [("h1", [])] "h2" (normOptions (some ["rw"]))⟩⟩) :=
  ⟨((C3_add_client ⟨[]⟩ "/p" "h1" none).1 (by decide)).1,
   (C3_add_client ⟨[("/p", ⟨"/p", [("h1", [])]⟩)]⟩ "/p" "h1" (some ["rw"])).2.1
      ⟨"/p", [("h1", [])]⟩ (by decide) (by decide),
   ((C3_add_client ⟨[("/p", ⟨"/p", [("h1", [])]⟩)]⟩ "/p" "h2" (some ["rw"])).2.2
      ⟨"/p", [("h1", [])]⟩ (by decide) (by decide)).1⟩

theorem remove_client_eq_none (t : ExportTable) (ep host : String)
    (h : dictLookup t.exports ep = none) :
    t.remove_client ep host = .error .exportNotFound := by
  rw [ExportTable.remove_client, h]

theorem remove_client_eq_some (t : ExportTable) (ep host : String) (e : Export)
    (h : dictLookup t.exports ep = some e) :
    t.remove_client ep host =
      (if dictContains e.clients host then
        (if 1 < e.clients.length then
          Export.make ep (dictRemove e.clients host) >>=
            (fun e' => .ok ⟨pyInsert t.exports ep e'⟩)
         else .ok ⟨dictRemove t.exports ep⟩)
       else .error .clientNotFound) := by
  rw [ExportTable.remove_client, h]

/-- C4: `remove_client` fails with `ExportNotFound` when the export point
is absent and with `ClientNotFound` when the host has no grant there (in
both failure cases the exception precedes any mutation, so the caller's
table is untouched); on success it removes the host: if the export held
exactly one client the export point entry itself is deleted from the
table, otherwise the entry survives with the reduced client map.  The
table is assumed to have unique keys, the representation invariant of the
Python dict. -/
theorem C4_remove_client (t : ExportTable) (ep host : String)
    (hnd : (t.exports.map Prod.fst).Nodup) :
    (dictLookup t.exports ep = none → t.remove_client ep host = .error .exportNotFound) ∧
    (∀ e, dictLookup t.exports ep = some e → dictContains e.clients host = false →
      t.remove_client ep host = .error .clientNotFound) ∧
    (∀ e, dictLookup t.exports ep = some e → dictContains e.clients host = true →
      e.clients.length = 1 →
      t.remove_client ep host = .ok ⟨dictRemove t.exports ep⟩ ∧
      dictLookup (dictRemove t.exports ep) ep = none) ∧
    (∀ e, dictLookup t.exports ep = some e → dictContains e.clients host = true →
      1 < e.clients.length →
      t.remove_client ep host
        = .ok ⟨pyInsert t.exports ep ⟨ep, dictRemove e.clients host⟩⟩ ∧
      dictLookup (pyInsert t.exports ep ⟨ep, dictRemove e.clients host⟩) ep
        = some ⟨ep, dictRemove e.clients host⟩) := by
  refine ⟨remove_client_eq_none t ep host, fun e hpres habs => ?_,
    fun e hpres hc hone => ?_, fun e hpres hc hmany => ?_⟩
  · rw [remove_client_eq_some t ep host e hpres, if_neg (by simp [habs])]
  · refine ⟨?_, dictLookup_dictRemove_self t.exports ep hnd⟩
    rw [remove_client_eq_some t ep host e hpres, if_pos hc]
    rw [if_neg (by omega)]
  · refine ⟨?_, dictLookup_pyInsert_self t.exports ep _⟩
    rw [remove_client_eq_some t ep host e hpres, if_pos hc, if_pos hmany]
    have hlen := length_dictRemove e.clients host hc
    rw [Export.make, if_neg (by
      intro hq
      rw [List.isEmpty_iff] at hq
      rw [hq] at hlen
      simp at hlen
      omega)]
    rw [except_bind_ok]

/-- C4 witness: the four branches evaluated on concrete tables. -/
theorem C4_remove_client_witness :
    (ExportTable.remove_client ⟨[]⟩ "/p" "h1" = .error .exportNotFound) ∧
    (ExportTable.remove_client ⟨[("/p", ⟨"/p", [("h1", [])]⟩)]⟩ "/p" "h2"
      = .error .clientNotFound) ∧
    (ExportTable.remove_client ⟨[("/p", ⟨"/p", [("h1", [])]⟩)]⟩ "/p" "h1"
      = .ok ⟨dictRemove [("/p", ⟨"/p", [("h1", [])]⟩)] "/p"⟩) ∧
    (ExportTable.remove_client ⟨[("/p", ⟨"/p", [("h1", []), ("h2", ["rw"])]⟩)]⟩ "/p" "h1"
      = .ok ⟨pyInsert [("/p", ⟨"/p", [("h1", []), ("h2", ["rw"])]⟩)] "/p"
          ⟨"/p", dictRemove [("h1", []), ("h2", ["rw"])] "h1"⟩⟩) :=
  ⟨(C4_remove_client ⟨[]⟩ "/p" "h1" (by decide)).1 (by decide),
   (C4_remove_client ⟨[("/p", ⟨"/p", [("h1", [])]⟩)]⟩ "/p" "h2" (by decide)).2.1
      ⟨"/p", [("h1", [])]⟩ (by decide) (by decide),
   ((C4_remove_client ⟨[("/p", ⟨"/p", [("h1", [])]⟩)]⟩ "/p" "h1" (by decide)).2.2.1
      ⟨"/p", [("h1", [])]⟩ (by decide) (by decide) (by decide)).1,
   ((C4_remove_client ⟨[("/p", ⟨"/p", [("h1", []), ("h2", ["rw"])]⟩)]⟩ "/p" "h1"
      (by decide)).2.2.2 ⟨"/p", [("h1", []), ("h2", ["rw"])]⟩
      (by decide) (by decide) (by decide)).1⟩

theorem client_extract_error_eq (tok : String) (e : ExportError)
    (h : client_extract tok = .error e) : e = .deserialization := by
  simp only [client_extract] at h
  split at h
  · injection h with h
    exact h.symm
  · split at h
    · exact absurd h (by simp)
    · split at h
      · exact absurd h (by simp)
      · injection h with h
        exact h.symm

theorem export_deserialize_eq_cons (line : String) (p0 c1 : String) (cs : List String)
    (h : pySplit line = p0 :: c1 :: cs) :
    Export.deserialize line = mapExcept client_extract (c1 :: cs) >>=
      (fun pairs => Export.make p0 (dictOfPairs pairs)) := by
  rw [Export.deserialize, h]

theorem export_deserialize_error_eq : ∀ (line : String) (e : ExportError),
    Export.deserialize line = .error e → e = .deserialization := by
  intro line e h
  cases hs : pySplit line with
  | nil =>
    rw [Export.deserialize, hs] at h
    injection h with h
    exact h.symm
  | cons p0 rest =>
    cases rest with
    | nil =>
      rw [Export.deserialize, hs] at h
      injection h with h
      exact h.symm
    | cons c1 cs =>
      rw [export_deserialize_eq_cons line p0 c1 cs hs] at h
      cases hm : mapExcept client_extract (c1 :: cs) with
      | error e' =>
        rw [hm, except_bind_error] at h
        injection h with h
        rcases mapExcept_error_mem (c1 :: cs) e' hm with ⟨tok, _, htok⟩
        rw [← h]
        exact client_extract_error_eq tok e' htok
      | ok pairs =>
        rw [hm, except_bind_ok] at h
        have hne : dictOfPairs pairs ≠ [] :=
          dictOfPairs_ne_nil pairs [] (Or.inr (mapExcept_cons_ok_ne_nil hm))
        rw [Export.make, if_neg (by simpa [List.isEmpty_iff] using hne)] at h
        exact absurd h (by simp)

/-- C5: `Export.deserialize` fails, and fails with a
`DeserializationException`, exactly when the line has fewer than two
whitespace-separated tokens or some client token (tokens 1..N) is
rejected by the client pattern; and any such failure on a kept line
aborts the whole `ExportTable.deserialize` with the same exception (the
`Except` result carries no partial table). -/
theorem C5_deserialize_failure (line : String) :
    (Export.deserialize line = .error .deserialization ↔
      ((pySplit line).length < 2 ∨
        ∃ tok ∈ (pySplit line).drop 1, client_extract tok = .error .deserialization)) ∧
    (∀ e, Export.deserialize line = .error e → e = .deserialization) ∧
    (∀ (lines : List String) (l : String), l ∈ lines → is_blank l = false →
      Export.deserialize (strip_comment l) = .error .deserialization →
      ExportTable.deserialize lines = .error .deserialization) := by
  refine ⟨⟨fun herr => ?_, fun hcond => ?_⟩,
    export_deserialize_error_eq line, fun lines l hl hblank hfail => ?_⟩
  · cases hs : pySplit line with
    | nil => left; decide
    | cons p0 rest =>
      cases rest with
      | nil => left; simp
      | cons c1 cs =>
        rw [export_deserialize_eq_cons line p0 c1 cs hs] at herr
        cases hm : mapExcept client_extract (c1 :: cs) with
        | error e' =>
          right
          rcases mapExcept_error_mem (c1 :: cs) e' hm with ⟨tok, htm, htok⟩
          refine ⟨tok, by simpa using htm, ?_⟩
          rw [htok, client_extract_error_eq tok e' htok]
        | ok pairs =>
          rw [hm, except_bind_ok] at herr
          have hne : dictOfPairs pairs ≠ [] :=
            dictOfPairs_ne_nil pairs [] (Or.inr (mapExcept_cons_ok_ne_nil hm))
          rw [Export.make, if_neg (by simpa [List.isEmpty_iff] using hne)] at herr
          exact absurd herr (by simp)
  · cases hs : pySplit line with
    | nil => rw [Export.deserialize, hs]
    | cons p0 rest =>
      cases rest with
      | nil => rw [Export.deserialize, hs]
      | cons c1 cs =>
        rcases hcond with hlen | ⟨tok, htm, htok⟩
        · rw [hs] at hlen
          simp at hlen
          omega
        · rw [hs] at htm
          rcases mapExcept_error_of_mem (c1 :: cs) tok _ (by simpa using htm) htok
            with ⟨e', he'⟩
          have hde : Export.deserialize line = .error e' := by
            rw [export_deserialize_eq_cons line p0 c1 cs hs, he', except_bind_error]
          rw [hde, export_deserialize_error_eq line e' hde]
  · have hkept : l ∈ lines.filter (fun l => !is_blank l) :=
      List.mem_filter.mpr ⟨hl, by rw [hblank]; rfl⟩
    rcases mapExcept_error_of_mem (f := fun l => Export.deserialize (strip_comment l))
      (lines.filter (fun l => !is_blank l)) l _ hkept hfail with ⟨e', he'⟩
    have hres : ExportTable.deserialize lines = .error e' := by
      rw [ExportTable.deserialize, he', except_bind_error]
    rcases mapExcept_error_mem _ e' he' with ⟨l', _, hfl'⟩
    rw [hres, export_deserialize_error_eq (strip_comment l') e' hfl']

/-- C5 witness: a one-token line is reported malformed, and a bad client
token aborts a whole table load. -/
theorem C5_deserialize_failure_witness :
    ((pySplit "/filesystem").length < 2 ∨
      ∃ tok ∈ (pySplit "/filesystem").drop 1,
        client_extract tok = .error .deserialization) ∧
    ExportTable.deserialize ["/p1 hosta(rw)", "/bad (rw,ro)"]
      = .error .deserialization :=
  ⟨(C5_deserialize_failure "/filesystem").1.mp (by decide),
   (C5_deserialize_failure "x").2.2 ["/p1 hosta(rw)", "/bad (rw,ro)"] "/bad (rw,ro)"
      (by decide) (by decide) (by decide)⟩

/-- The invariant of C6: every Export held in a table has a non-empty
clients map. -/
def TableWF (t : ExportTable) : Prop := ∀ pe ∈ t.exports, pe.2.clients ≠ []

instance (t : ExportTable) : Decidable (TableWF t) := by
  unfold TableWF
  infer_instance

/-- C6: the non-empty-clients invariant: constructing an `Export` with
zero clients fails with `ExportException`; `add_client` and
`remove_client` preserve the invariant (removing the last client deletes
the export point entry instead of leaving an empty map, see C4); and
every table produced by `ExportTable.deserialize` satisfies it. -/
theorem C6_invariant :
    (∀ ep, Export.make ep [] = .error .exportException) ∧
    (∀ t ep h os t', TableWF t → ExportTable.add_client t ep h os = .ok t' → TableWF t') ∧
    (∀ t ep h t', TableWF t → ExportTable.remove_client t ep h = .ok t' → TableWF t') ∧
    (∀ lines t, ExportTable.deserialize lines = .ok t → TableWF t) := by
  refine ⟨fun ep => rfl, fun t ep h os t' hwf hok => ?_, fun t ep h t' hwf hok => ?_,
    fun lines t hok => ?_⟩
  · cases hl : dictLookup t.exports ep with
    | none =>
      rw [ExportTable.add_client, hl, Export.make, if_neg (by simp), except_bind_ok] at hok
      injection hok with hok
      subst hok
      intro pe hpe
      rcases mem_pyInsert _ _ _ pe hpe with rfl | hold
      · simp
      · exact hwf pe hold
    | some e =>
      rw [add_client_eq_some t ep h os e hl] at hok
      by_cases hc : dictContains e.clients h = true
      · rw [if_pos hc] at hok
        exact absurd hok (by simp)
      · rw [if_neg hc, Export.make, if_neg (by simp [pyInsert_ne_nil]),
          except_bind_ok] at hok
        injection hok with hok
        subst hok
        intro pe hpe
        rcases mem_pyInsert _ _ _ pe hpe with rfl | hold
        · exact pyInsert_ne_nil e.clients h _
        · exact hwf pe hold
  · cases hl : dictLookup t.exports ep with
    | none =>
      rw [remove_client_eq_none t ep h hl] at hok
      exact absurd hok (by simp)
    | some e =>
      rw [remove_client_eq_some t ep h e hl] at hok
      by_cases hc : dictContains e.clients h = true
      · rw [if_pos hc] at hok
        by_cases hlen : 1 < e.clients.length
        · rw [if_pos hlen] at hok
          have hrem := length_dictRemove e.clients h hc
          rw [Export.make, if_neg (by
            intro hq
            rw [List.isEmpty_iff] at hq
            rw [hq] at hrem
            simp at hrem
            omega), except_bind_ok] at hok
          injection hok with hok
          subst hok
          intro pe hpe
          rcases mem_pyInsert _ _ _ pe hpe with rfl | hold
          · intro hq
            have hq' : dictRemove e.clients h = [] := hq
            rw [hq'] at hrem
            simp at hrem
            omega
          · exact hwf pe hold
        · rw [if_neg hlen] at hok
          injection hok with hok
          subst hok
          intro pe hpe
          exact hwf pe (mem_dictRemove t.exports ep pe hpe)
      · rw [if_neg hc] at hok
        exact absurd hok (by simp)
  · rw [ExportTable.deserialize] at hok
    cases hm : mapExcept (fun l => Export.deserialize (strip_comment l))
        (lines.filter (fun l => !is_blank l)) with
    | error e =>
      rw [hm, except_bind_error] at hok
      exact absurd hok (by simp)
    | ok exports =>
      rw [hm, except_bind_ok] at hok
      injection hok with hok
      subst hok
      intro pe hpe
      rw [ExportTable.ofExports, dictOfPairs] at hpe
      rcases mem_dictOfPairs _ [] pe hpe with h0 | hmem
      · exact absurd h0 (by simp)
      · rcases List.mem_map.mp hmem with ⟨e, hemem, rfl⟩
        rcases mapExcept_mem_ok _ exports hm e hemem with ⟨l, _, hl⟩
        cases hs : pySplit (strip_comment l) with
        | nil =>
          rw [Export.deserialize, hs] at hl
          exact absurd hl (by simp)
        | cons p0 rest =>
          cases rest with
          | nil =>
            rw [Export.deserialize, hs] at hl
            exact absurd hl (by simp)
          | cons c1 cs =>
            rw [export_deserialize_eq_cons _ p0 c1 cs hs] at hl
            cases hme : mapExcept client_extract (c1 :: cs) with
            | error e' =>
              rw [hme, except_bind_error] at hl
              exact absurd hl (by simp)
            | ok pairs =>
              rw [hme, except_bind_ok] at hl
              have hne : dictOfPairs pairs ≠ [] :=
                dictOfPairs_ne_nil pairs [] (Or.inr (mapExcept_cons_ok_ne_nil hme))
              rw [Export.make, if_neg (by simpa [List.isEmpty_iff] using hne)] at hl
              injection hl with hl
              rw [← hl]
              exact hne

/-- C6 witness: the invariant facts evaluated on concrete tables. -/
theorem C6_invariant_witness :
    Export.make "/p" [] = .error .exportException ∧
    TableWF ⟨[("/p", ⟨"/p", [("h1", [])]⟩)]⟩ ∧
    TableWF ⟨[]⟩ ∧
    TableWF ⟨[("/p", ⟨"/p", [("hosta", ["rw"])]⟩)]⟩ :=
  ⟨C6_invariant.1 "/p",
   C6_invariant.2.1 ⟨[]⟩ "/p" "h1" none ⟨[("/p", ⟨"/p", [("h1", [])]⟩)]⟩
     (by decide) (by decide),
   C6_invariant.2.2.1 ⟨[("/p", ⟨"/p", [("h1", [])]⟩)]⟩ "/p" "h1" ⟨[]⟩
     (by decide) (by decide),
   C6_invariant.2.2.2 ["/p hosta(rw)"] ⟨[("/p", ⟨"/p", [("hosta", ["rw"])]⟩)]⟩
     (by decide)⟩

/-- C7 counterexample: the claim asserts that a not-found error during
the tombstone rename is swallowed by both backends, including the
line-file backend; but `helper.wipe_export` logs and re-raises every
rename `OSError`, so an `ENOENT` rename failure propagates there. -/
theorem C7_enoent_counterexample :
    helperWipeRename (.oserror ENOENT) = .error ENOENT := rfl

/-- C7 (amended): the SMB backend's `wipe_export` swallows a rename
`OSError` whose errno is `ENOENT` (the operation proceeds) and re-raises
any other errno; the line-file backend's `wipe_export` re-raises every
rename `OSError`, `ENOENT` included. -/
theorem C7_wipe_rename (e : Nat) :
    smbWipeRename (.oserror ENOENT) = .ok () ∧
    (e ≠ ENOENT → smbWipeRename (.oserror e) = .error e) ∧
    helperWipeRename (.oserror e) = .error e := by
  refine ⟨rfl, fun h => ?_, rfl⟩
  rw [smbWipeRename, if_pos h]

/-- C7 witness: the amended behavior at errno 13 (`EACCES`). -/
theorem C7_wipe_rename_witness :
    smbWipeRename (.oserror ENOENT) = .ok () ∧
    smbWipeRename (.oserror 13) = .error 13 ∧
    helperWipeRename (.oserror 13) = .error 13 :=
  ⟨(C7_wipe_rename 13).1, (C7_wipe_rename 13).2.1 (by decide), (C7_wipe_rename 13).2.2⟩

theorem joinNewline_flat : ∀ (lines : List String), lines ≠ [] →
    (joinNewline lines).data ++ ['\n'] = (lines.map (fun l => l.data ++ ['\n'])).flatten := by
  intro lines
  induction lines with
  | nil => intro h; exact absurd rfl h
  | cons x lines ih =>
    intro _
    cases lines with
    | nil => simp [joinNewline]
    | cons y rest =>
      rw [joinNewline, List.map_cons, List.flatten_cons]
      rw [String.data_append, String.data_append]
      rw [show ("\n" : String).data = ['\n'] from rfl]
      rw [← ih (by simp)]
      simp [List.append_assoc]

/-- C8: `ExportTable.serialize` emits every contained Export's serialized
line newline-joined with exactly one trailing newline; equivalently, for
a non-empty table, each line followed by one newline, concatenated.  The
empty table serializes to exactly the one-character string `"\n"`. -/
theorem C8_table_serialize :
    ExportTable.serialize ⟨[]⟩ = "\n" ∧
    (∀ t : ExportTable, ExportTable.serialize t
      = joinNewline (t.exports.map (fun pe => pe.2.serialize)) ++ "\n") ∧
    (∀ t : ExportTable, t.exports ≠ [] →
      (ExportTable.serialize t).data
        = (t.exports.map (fun pe => pe.2.serialize.data ++ ['\n'])).flatten) := by
  refine ⟨rfl, fun t => rfl, fun t hne => ?_⟩
  rw [ExportTable.serialize, String.data_append]
  rw [show ("\n" : String).data = ['\n'] from rfl]
  rw [joinNewline_flat (t.exports.map (fun pe => pe.2.serialize)) (by simp [hne])]
  rw [List.map_map]
  rfl

/-- C8 witness: the non-empty characterization on a one-entry table. -/
theorem C8_table_serialize_witness :
    (ExportTable.serialize ⟨[("/p", ⟨"/p", [("h1", [])]⟩)]⟩).data
      = ([("/p", (⟨"/p", [("h1", [])]⟩ : Export))].map
          (fun pe => pe.2.serialize.data ++ ['\n'])).flatten :=
  C8_table_serialize.2.2 ⟨[("/p", ⟨"/p", [("h1", [])]⟩)]⟩ (by decide)

theorem dropWhile_all {p : Char → Bool} : ∀ {l : List Char}, (∀ c ∈ l, p c = true) →
    l.dropWhile p = []
  | [], _ => rfl
  | c :: l, h => by
    rw [List.dropWhile_cons, if_pos (h c (by simp))]
    exact dropWhile_all (fun x hx => h x (by simp [hx]))

theorem dropWhile_shape (p : Char → Bool) : ∀ (l : List Char),
    l.dropWhile p = [] ∨ ∃ x xs, l.dropWhile p = x :: xs ∧ p x = false := by
  intro l
  induction l with
  | nil => exact Or.inl rfl
  | cons c l ih =>
    rw [List.dropWhile_cons]
    by_cases hc : p c = true
    · rw [if_pos hc]
      exact ih
    · rw [if_neg hc]
      exact Or.inr ⟨c, l, rfl, by simpa using hc⟩

/-- C9: comment handling in `ExportTable.deserialize`: everything from
the first `#` onward is stripped, so appending a comment to a
`#`-free line leaves its parse unchanged; a line that is blank, or
whitespace-only after comment stripping, is skipped and contributes
nothing to the table; and the concrete line with a trailing comment
parses to the same table as without it. -/
theorem C9_comment_stripping :
    (∀ (l suffix : String), (∀ c ∈ l.data, c ≠ '#') →
      strip_comment (l ++ "#" ++ suffix) = l ∧ strip_comment l = l) ∧
    (∀ (pre post : List String) (b : String), is_blank b = true →
      ExportTable.deserialize (pre ++ b :: post) = ExportTable.deserialize (pre ++ post)) ∧
    (∀ b : String, (strip_comment b).data.all isPySpace = true → is_blank b = true) ∧
    (ExportTable.deserialize ["/p1 host1(rw) # comment"]
      = ExportTable.deserialize ["/p1 host1(rw)"]) := by
  refine ⟨fun l suffix hl => ?_, fun pre post b hb => ?_, fun b hall => ?_, by decide⟩
  · refine ⟨?_, strip_comment_id l hl⟩
    rw [strip_comment, String.data_append, String.data_append]
    rw [show ("#" : String).data = ['#'] from rfl, List.append_assoc, List.singleton_append]
    rw [takeWhile_app _ (fun c hc => decide_eq_true (hl c hc))]
    rw [List.takeWhile_cons, if_neg (by decide), List.append_nil, data_asString]
  · have hfilt : (pre ++ b :: post).filter (fun l => !is_blank l)
        = (pre ++ post).filter (fun l => !is_blank l) := by
      rw [List.filter_append, List.filter_append, List.filter_cons]
      rw [if_neg (by rw [hb]; simp)]
    rw [ExportTable.deserialize, ExportTable.deserialize, hfilt]
  · have hdata : (strip_comment b).data = b.data.takeWhile (fun c => decide (c ≠ '#')) := by
      rw [strip_comment, asString_data]
    rw [hdata, List.all_eq_true] at hall
    have hsplitb := List.takeWhile_append_dropWhile
      (p := fun c => decide (c ≠ '#')) (l := b.data)
    rcases dropWhile_shape (fun c => decide (c ≠ '#')) b.data with hr | ⟨x, xs, hr, hx⟩
    · have hbsp : ∀ c ∈ b.data, isPySpace c = true := by
        intro c hc
        apply hall
        conv at hc => rw [← hsplitb]
        rw [hr, List.append_nil] at hc
        exact hc
      have hdw : b.data.dropWhile isPySpace = [] := dropWhile_all hbsp
      have hstrip : pyStrip b = "" := by
        rw [pyStrip, hdw]
        rfl
      rw [is_blank, hstrip]
      rfl
    · have hxh : x = '#' := by
        have := decide_eq_false_iff_not.mp hx
        exact not_not.mp this
      subst hxh
      have hdw : b.data.dropWhile isPySpace = '#' :: xs := by
        conv_lhs => rw [← hsplitb]
        rw [hr, dropWhile_app]
        rw [if_pos (dropWhile_all (fun c hc => hall c hc))]
        rw [List.dropWhile_cons, if_neg (by decide)]
      have hhead : (pyStrip b).data.head? = some '#' := by
        rw [pyStrip, hdw, asString_data]
        exact dropTrailing_head '#' xs (by decide)
      rw [is_blank]
      rw [decide_eq_true hhead, Bool.or_true]

/-- C9 witness: the comment-strip laws evaluated on concrete lines. -/
theorem C9_comment_stripping_witness :
    strip_comment ("/p1 hosta(rw) " ++ "#" ++ " comment") = "/p1 hosta(rw) " ∧
    ExportTable.deserialize (["/p1 hosta(rw)"] ++ "  ## DATABASE ##" :: ["/p2 hostb"])
      = ExportTable.deserialize (["/p1 hosta(rw)"] ++ ["/p2 hostb"]) ∧
    is_blank "  # only a comment" = true :=
  ⟨(C9_comment_stripping.1 "/p1 hosta(rw) " " comment" (by decide)).1,
   C9_comment_stripping.2.1 ["/p1 hosta(rw)"] ["/p2 hostb"] "  ## DATABASE ##" (by decide),
   C9_comment_stripping.2.2.1 "  # only a comment" (by decide)⟩

theorem optOr_none_right {α : Type} (o : Option α) : o.or none = o := by
  cases o <;> rfl

theorem optOr_assoc {α : Type} (a b c : Option α) : (a.or b).or c = a.or (b.or c) := by
  cases a <;> rfl

theorem optOr_some_right_absorb {α : Type} (a : Option α) (v : α) (c : Option α) :
    (a.or (some v)).or c = a.or (some v) := by
  cases a <;> rfl

theorem optOr_map {α β : Type} (f : α → β) (a b : Option α) :
    (a.or b).map f = (a.map f).or (b.map f) := by
  cases a <;> rfl

theorem lastOf_isSome {α : Type} : ∀ (l : List α), l ≠ [] → (lastOf l).isSome = true := by
  intro l
  induction l with
  | nil => intro h; exact absurd rfl h
  | cons x l ih =>
    intro _
    cases l with
    | nil => rfl
    | cons y ys => exact ih (by simp)

theorem lastOf_cons {α : Type} (x : α) (l : List α) :
    lastOf (x :: l) = (lastOf l).or (some x) := by
  cases l with
  | nil => rfl
  | cons y ys =>
    rw [show lastOf (x :: y :: ys) = lastOf (y :: ys) from rfl]
    cases hly : lastOf (y :: ys) with
    | none =>
      have := lastOf_isSome (y :: ys) (by simp)
      rw [hly] at this
      exact absurd this (by simp)
    | some z => rfl

theorem lastOf_map {α β : Type} (f : α → β) : ∀ (l : List α),
    lastOf (l.map f) = (lastOf l).map f := by
  intro l
  induction l with
  | nil => rfl
  | cons x l ih =>
    rw [List.map_cons, lastOf_cons, lastOf_cons, ih, optOr_map]
    rfl

theorem dictLookup_foldl_last {α : Type} : ∀ (ps acc : List (String × α)) (p : String),
    dictLookup (ps.foldl (fun d kv => pyInsert d kv.1 kv.2) acc) p
      = ((lastOf (ps.filter (fun kv => kv.1 = p))).map Prod.snd).or (dictLookup acc p) := by
  intro ps
  induction ps with
  | nil => intro acc p; rfl
  | cons kv ps ih =>
    intro acc p
    rw [List.foldl_cons, ih (pyInsert acc kv.1 kv.2) p, List.filter_cons]
    by_cases hk : kv.1 = p
    · rw [if_pos (by simp [hk]), lastOf_cons, optOr_map, optOr_assoc]
      rw [show dictLookup (pyInsert acc kv.1 kv.2) p = some kv.2 from by
        rw [← hk]
        exact dictLookup_pyInsert_self acc kv.1 kv.2]
      rw [show (((some kv).map Prod.snd).or (dictLookup acc p) : Option α)
            = some kv.2 from rfl]
    · rw [if_neg (by simp [hk])]
      rw [dictLookup_pyInsert_ne acc kv.1 p kv.2 (fun h => hk h.symm)]

/-- C10: when several parseable lines carry the same export point, table
deserialization succeeds without error and the table maps that export
point to the Export parsed from the last such kept line (last line wins;
earlier lines' grants for that point are silently discarded). -/
theorem C10_last_line_wins (lines : List String) (exports : List Export)
    (h : mapExcept (fun l => Export.deserialize (strip_comment l))
      (lines.filter (fun l => !is_blank l)) = .ok exports) :
    ExportTable.deserialize lines = .ok (ExportTable.ofExports exports) ∧
    ∀ p, dictLookup (ExportTable.ofExports exports).exports p
      = lastOf (exports.filter (fun e => e.export_point = p)) := by
  constructor
  · rw [ExportTable.deserialize, h, except_bind_ok]
  · intro p
    rw [ExportTable.ofExports, dictOfPairs, dictLookup_foldl_last]
    rw [show dictLookup ([] : List (String × Export)) p = none from rfl, optOr_none_right]
    rw [List.filter_map]
    rw [show ((fun kv : String × Export => decide (kv.1 = p))
          ∘ (fun e : Export => (e.export_point, e)))
        = (fun e : Export => decide (e.export_point = p)) from rfl]
    rw [lastOf_map, Option.map_map]
    cases lastOf (exports.filter (fun e => e.export_point = p)) <;> rfl

/-- C10 witness: two parseable lines with the same export point — the
load succeeds and the second line's Export wins. -/
theorem C10_last_line_wins_witness :
    ExportTable.deserialize ["/p hosta", "/p hostb(rw)"]
      = .ok (ExportTable.ofExports
          [⟨"/p", [("hosta", [])]⟩, ⟨"/p", [("hostb", ["rw"])]⟩]) ∧
    dictLookup (ExportTable.ofExports
        [⟨"/p", [("hosta", [])]⟩, ⟨"/p", [("hostb", ["rw"])]⟩]).exports "/p"
      = lastOf ([⟨"/p", [("hosta", [])]⟩, ⟨"/p", [("hostb", ["rw"])]⟩].filter
          (fun e => e.export_point = "/p")) :=
  ⟨(C10_last_line_wins ["/p hosta", "/p hostb(rw)"]
      [⟨"/p", [("hosta", [])]⟩, ⟨"/p", [("hostb", ["rw"])]⟩] (by decide)).1,
   (C10_last_line_wins ["/p hosta", "/p hostb(rw)"]
      [⟨"/p", [("hosta", [])]⟩, ⟨"/p", [("hostb", ["rw"])]⟩] (by decide)).2 "/p"⟩
